import Mathlib

/-!
Verification of the finite-domain CSP solvers of this repository
(`Chapter 5`: map coloring, N-Queens, Sudoku, cryptarithmetic backtracking).

All four Python solvers share the same AC-3 worklist loop:

    queue = [initial arcs]
    while queue:
        (xi, xj) = queue.pop(0)
        if self.revise(xi, xj):
            if not self.domains[xi]:
                return False
            for xk in <solver-specific re-enqueue set>:
                queue.append((xk, xi))
    return True

We embed this loop once, parameterised by the per-solver data (variable
list, neighbour lists, the binary predicate used by `revise`, and the
solver-specific re-enqueue set), and instantiate it for each solver.

Python `set` domains are embedded as duplicate-free `List`s; `revise`'s
removal loop over a copy of the set is exactly a `List.filter` keeping
the values that have a support.  The loop is embedded with explicit
fuel (`ac3F`); a termination theorem below computes a sufficient fuel
bound, and the wrapper `ac3RunQ` runs the loop with that bound.
-/

namespace CSPModel

/-- The mutable `self.domains` dictionary: current candidate values of every
variable. -/
def DState (V α : Type) := V → List α

/-- `self.domains[v] = d` (functional update of the domain store). -/
def dset {V α : Type} [DecidableEq V] (st : DState V α) (v : V) (d : List α) :
    DState V α :=
  fun w => if w = v then d else st w

/-- `revise(xi, xj)` body, shared by all four solvers: remove from `di` every
value `x` such that no value `y` of `dj` satisfies the arc's predicate
`P x y`.  Python iterates over a copy of the set and removes failing values
in place; the surviving set is exactly this filter. -/
def reviseDomain {α : Type} (P : α → α → Bool) (di dj : List α) : List α :=
  di.filter (fun x => dj.any (fun y => P x y))

/-- The per-solver data consumed by the shared AC-3 loop.

* `vars` — the variable list (`self.map_graph` keys, `range(n)`,
  `self.domains` keys, `self.variables`), in Python iteration order;
* `nbrs` — the constraint-graph neighbours of a variable;
* `pred` — the binary predicate `revise` checks for arc `(xi, xj)`;
* `requeue` — the solver-specific set of `xk` for which `(xk, xi)` is
  appended after a successful revision of `xi` against `xj`;
* `K` — an upper bound on the length of any `requeue` result, used only to
  compute a sufficient fuel bound for the worklist loop. -/
structure Solver (V α : Type) where
  vars : List V
  nbrs : V → List V
  pred : V → V → α → α → Bool
  requeue : V → V → List V
  K : Nat

/-- The arcs a solver appends to the worklist after revising `(xi, xj)`. -/
def appendedArcs {V α : Type} (S : Solver V α) (xi xj : V) : List (V × V) :=
  (S.requeue xi xj).map (fun xk => (xk, xi))

/-- The shared AC-3 worklist loop, with explicit fuel (the Python `while`
loop terminates; `ac3F_isSome_of_bound` below shows the fuel used by the
wrapper `ac3RunQ` always suffices).  Returns `none` on fuel exhaustion,
otherwise `some (result, final domains)` exactly as the Python loop
returns `True`/`False` with `self.domains` mutated in place. -/
def ac3F {V α : Type} [DecidableEq V] [DecidableEq α] (S : Solver V α) :
    Nat → DState V α → List (V × V) → Option (Bool × DState V α)
  | 0, _, _ => none
  | _ + 1, st, [] => some (true, st)
  | fuel + 1, st, (xi, xj) :: rest =>
    let di := reviseDomain (S.pred xi xj) (st xi) (st xj)
    if di = st xi then
      ac3F S fuel st rest
    else if di = [] then
      some (false, dset st xi di)
    else
      ac3F S fuel (dset st xi di) (rest ++ appendedArcs S xi xj)

/-- The initial worklist of `ac3`: every arc of the constraint graph, in
variable order (map coloring/N-Queens/Sudoku build exactly this; the
cryptarithmetic solver instead passes its `constraints` list). -/
def initArcs {V α : Type} (S : Solver V α) : List (V × V) :=
  S.vars.flatMap (fun xi => (S.nbrs xi).map (fun xj => (xi, xj)))

/-- Total number of candidate values over the solver's variables; the
quantity every successful revision strictly decreases. -/
def totalSize {V α : Type} (S : Solver V α) (st : DState V α) : Nat :=
  (S.vars.map (fun v => (st v).length)).sum

/-- Fuel that provably suffices for the worklist loop (see
`ac3F_isSome_of_bound`). -/
def ac3Bound {V α : Type} (S : Solver V α) (st : DState V α)
    (q : List (V × V)) : Nat :=
  totalSize S st * (S.K + 1) + q.length + 1

/-- Run the AC-3 loop on worklist `q` with the sufficient fuel bound.
(The default value is never used when the solver satisfies the hypotheses
of `ac3F_isSome_of_bound`.) -/
def ac3RunQ {V α : Type} [DecidableEq V] [DecidableEq α] (S : Solver V α)
    (st : DState V α) (q : List (V × V)) : Bool × DState V α :=
  (ac3F S (ac3Bound S st q) st q).getD (false, st)

/-- `self.ac3()` for the solvers that build the full initial worklist. -/
def ac3Run {V α : Type} [DecidableEq V] [DecidableEq α] (S : Solver V α)
    (st : DState V α) : Bool × DState V α :=
  ac3RunQ S st (initArcs S)

/-- Arc `(a, b)` is consistent in state `st`: every value of `a`'s domain
has at least one support in `b`'s domain (the condition under which
`revise(a, b)` removes nothing). -/
def Consistent {V α : Type} (S : Solver V α) (st : DState V α) (a b : V) :
    Prop :=
  ∀ x ∈ st a, ∃ y ∈ st b, S.pred a b x y = true

/-- Python's `min(iterable, key=...)` over a list: the first element whose
key is minimal.  `lt a b` is the strict "key of `a` is smaller than key of
`b`" comparison; a later element replaces the current best only when
strictly better, so ties keep the earlier element, as Python `min` does. -/
def pickMin {V : Type} (lt : V → V → Bool) : List V → Option V
  | [] => none
  | v :: rest =>
    some (rest.foldl (fun acc c => if lt c acc then c else acc) v)

/-- Result of an embedded Python call: a normal return value, an uncaught
exception (`ValueError` raised by `min()` over an empty sequence), or
exhaustion of the model's recursion fuel (which adequate fuel never
reaches). -/
inductive PyRes (σ : Type) where
  | out : σ → PyRes σ
  | err : PyRes σ
  | fuelOut : PyRes σ
deriving DecidableEq

/- ------------------------------------------------------------------
`Chapter 5/map-coloring/main.py`, class `MapColoring`.

Countries and colors are embedded as natural numbers.  `map_graph` is the
adjacency association list, in Python dict insertion order; `set(colors)`
becomes the duplicate-free color list.
------------------------------------------------------------------ -/

/-- `self.map_graph`: each country paired with its neighbour list. -/
def MapGraph := List (Nat × List Nat)

def mapVars (g : MapGraph) : List Nat := g.map Prod.fst

/-- `self.map_graph[country]` (empty for a country that is not a key,
which never happens on the graphs the class is used with). -/
def mapNbrs (g : MapGraph) (v : Nat) : List Nat := (List.lookup v g).getD []

/-- The largest adjacency-list length, bounding the re-enqueue size. -/
def mapMaxDeg (g : MapGraph) : Nat :=
  (g.map (fun p => p.2.length)).foldr max 0

/-- `MapColoring`'s instantiation of the shared AC-3 data: `revise` keeps a
color iff some neighbour color differs, and after a revision of `xi`
against `xj` the loop appends `(xk, xi)` for `xk in self.map_graph[xi]`
with `xk != xj`. -/
def mapSolver (g : MapGraph) : Solver Nat Nat where
  vars := mapVars g
  nbrs := mapNbrs g
  pred := fun _ _ x y => x != y
  requeue := fun xi xj => (mapNbrs g xi).filter (fun xk => xk != xj)
  K := mapMaxDeg g

/-- `self.domains = {country: set(colors) for country in map_graph}`. -/
def mapInit (colors : List Nat) : DState Nat Nat := fun _ => colors.dedup

/-- The Python `min` key `(len(self.domains[country]),
-len(self.map_graph[country]))`, as a strict comparison: `c` beats `acc`
iff its domain is smaller, or equal-sized with strictly more neighbours in
the full map graph. -/
def mapBetter (g : MapGraph) (st : DState Nat Nat) (c acc : Nat) : Bool :=
  (st c).length < (st acc).length ||
    ((st c).length == (st acc).length &&
      (mapNbrs g acc).length < (mapNbrs g c).length)

/-- `select_unassigned_variable`: MRV over the countries with more than one
remaining color, ties broken by the degree key above; `none` when the
generator is empty (Python `min` raises `ValueError`). -/
def mapSelectVar (g : MapGraph) (st : DState Nat Nat) : Option Nat :=
  pickMin (mapBetter g st) ((mapVars g).filter (fun c => 1 < (st c).length))

/-- `is_consistent(country, color)`: no neighbour has a singleton domain
containing `color`. -/
def mapIsConsistent (g : MapGraph) (st : DState Nat Nat)
    (country color : Nat) : Bool :=
  (mapNbrs g country).all (fun nb =>
    !((st nb).length == 1 && (st nb).contains color))

/-- `assign(country, color)`: `self.domains[country] = {color}`. -/
def mapAssign (st : DState Nat Nat) (country color : Nat) : DState Nat Nat :=
  dset st country [color]

/-- `unassign(country, original_domain)`: restore that one country's
domain. -/
def mapUnassign (st : DState Nat Nat) (country : Nat) (orig : List Nat) :
    DState Nat Nat :=
  dset st country orig

/-- The `for color in sorted(self.domains[country])` loop of `backtrack`:
try the color if locally consistent, run AC-3, recurse on success
(`bt` is the recursion one fuel level lower), and on any failure
`unassign` — which restores only the selected country's domain. -/
def mapLoop (g : MapGraph) (country : Nat) (orig : List Nat)
    (bt : DState Nat Nat → PyRes (Bool × DState Nat Nat)) :
    List Nat → DState Nat Nat → PyRes (Bool × DState Nat Nat)
  | [], st => .out (false, st)
  | color :: rest, st =>
    if mapIsConsistent g st country color then
      if (ac3Run (mapSolver g) (mapAssign st country color)).1 then
        match bt (ac3Run (mapSolver g) (mapAssign st country color)).2 with
        | .out (true, st2) => .out (true, st2)
        | .out (false, st2) =>
          mapLoop g country orig bt rest (mapUnassign st2 country orig)
        | .err => .err
        | .fuelOut => .fuelOut
      else
        mapLoop g country orig bt rest
          (mapUnassign
            (ac3Run (mapSolver g) (mapAssign st country color)).2
            country orig)
    else
      mapLoop g country orig bt rest (mapUnassign st country orig)

/-- `MapColoring.backtrack`, with explicit fuel, one unit per nesting
level of the Python recursion. -/
def mapBacktrack (g : MapGraph) : Nat → DState Nat Nat →
    PyRes (Bool × DState Nat Nat)
  | 0, _ => .fuelOut
  | fuel + 1, st =>
    if (mapVars g).all (fun c => (st c).length == 1) then
      .out (true, st)
    else
      match mapSelectVar g st with
      | none => .err
      | some country =>
        mapLoop g country (st country) (fun s => mapBacktrack g fuel s)
          (List.insertionSort (· ≤ ·) (st country)) st

/-- The searching flag of a `backtrack` result, when it returned. -/
def mapResFlag : PyRes (Bool × DState Nat Nat) → Option Bool
  | .out (b, _) => some b
  | _ => none

/-- One country's domain in the final state of a `backtrack` result. -/
def mapResDom : PyRes (Bool × DState Nat Nat) → Nat → Option (List Nat)
  | .out (_, st), v => some (st v)
  | _, _ => none

/-- Soundness statement for a map-coloring state: every arc of the map
graph carries different colors whenever both endpoint domains are
singletons (a completed state assigns `country` the sole member of its
domain). -/
def MapSoundState (g : MapGraph) (st : DState Nat Nat) : Prop :=
  ∀ a ∈ mapVars g, ∀ b ∈ mapNbrs g a, ∀ x y,
    st a = [x] → st b = [y] → x ≠ y

/- ------------------------------------------------------------------
`Chapter 5/n-queens/main.py`, class `NQueensSolver`.
Variables are column indices `0..n-1`, values are row indices.
------------------------------------------------------------------ -/

/-- `is_valid_assignment(row1, row2, col1, col2)`: different rows and not
on a common diagonal (`abs` becomes `Nat.dist`). -/
def isValidAssignment (row1 row2 col1 col2 : Nat) : Bool :=
  row1 != row2 && (Nat.dist row1 row2 != Nat.dist col1 col2)

/-- `NQueensSolver`'s instantiation of the shared AC-3 data: the initial
worklist is every ordered pair of distinct columns, and after a revision
of `xi` against `xj` the loop appends `(xk, xi)` for every `xk` with
`xk != xj and xk != xi`. -/
def nqSolver (n : Nat) : Solver Nat Nat where
  vars := List.range n
  nbrs := fun xi => (List.range n).filter (fun xj => xj != xi)
  pred := fun xi xj r1 r2 => isValidAssignment r1 r2 xi xj
  requeue := fun xi xj =>
    (List.range n).filter (fun xk => xk != xj && xk != xi)
  K := n

/-- `self.domains = {col: set(range(n)) for col in range(n)}`. -/
def nqInit (n : Nat) : DState Nat Nat := fun _ => List.range n

/-- `select_unassigned_variable` (plain MRV). -/
def nqSelectVar (n : Nat) (st : DState Nat Nat) : Option Nat :=
  pickMin (fun c acc => decide ((st c).length < (st acc).length))
    ((List.range n).filter (fun col => 1 < (st col).length))

/-- `order_domain_values(col)` = `sorted(self.domains[col])`. -/
def nqOrderVals (st : DState Nat Nat) (col : Nat) : List Nat :=
  List.insertionSort (· ≤ ·) (st col)

/-- `is_consistent(column, row)`: `row` is valid against every other
committed (singleton-domain) column. -/
def nqIsConsistent (n : Nat) (st : DState Nat Nat) (column row : Nat) :
    Bool :=
  (List.range n).all (fun col =>
    !(col != column && (st col).length == 1 &&
      !isValidAssignment row ((st col).headD 0) column col))

/-- The `for row in self.order_domain_values(column)` loop of
`backtrack`: assign, recurse (`bt` is the recursion one fuel level
lower); a truthy (non-empty) result is returned, otherwise `unassign`
restores the column's snapshot and the next row is tried.  No AC-3 runs
inside this solver's backtracking. -/
def nqLoop (n : Nat) (column : Nat) (orig : List Nat)
    (bt : DState Nat Nat → PyRes (List (Nat × Nat))) :
    List Nat → DState Nat Nat → PyRes (List (Nat × Nat))
  | [], _ => .out []
  | row :: rest, st =>
    if nqIsConsistent n st column row then
      match bt (dset st column [row]) with
      | .out d =>
        if d.isEmpty then
          nqLoop n column orig bt rest
            (dset (dset st column [row]) column orig)
        else .out d
      | .err => .err
      | .fuelOut => .fuelOut
    else
      nqLoop n column orig bt rest st

/-- `NQueensSolver.backtrack`, with explicit fuel.  Returns the solution
dict (as an association list in `range(n)` order) on success and the
empty dict on failure, exactly like the Python method. -/
def nqBacktrack (n : Nat) : Nat → DState Nat Nat →
    PyRes (List (Nat × Nat))
  | 0, _ => .fuelOut
  | fuel + 1, st =>
    if (List.range n).all (fun col => (st col).length == 1) then
      .out ((List.range n).map (fun col => (col, (st col).headD 0)))
    else
      match nqSelectVar n st with
      | none => .err
      | some column =>
        nqLoop n column (st column) (fun s => nqBacktrack n fuel s)
          (nqOrderVals st column) st

/-- Pairwise validity of the committed (singleton-domain) columns. -/
def NQSoundState (n : Nat) (st : DState Nat Nat) : Prop :=
  ∀ c1 ∈ List.range n, ∀ c2 ∈ List.range n, c1 ≠ c2 →
    ∀ r1 r2, st c1 = [r1] → st c2 = [r2] →
      isValidAssignment r1 r2 c1 c2 = true

/-- Every pair of distinct columns of the returned dict satisfies the
no-attack constraint — the registered constraint of every N-Queens arc. -/
def NQSoundDict (d : List (Nat × Nat)) : Prop :=
  ∀ p1 ∈ d, ∀ p2 ∈ d, p1.1 ≠ p2.1 →
    isValidAssignment p1.2 p2.2 p1.1 p2.1 = true

/- ------------------------------------------------------------------
`Chapter 5/sudoku/main.py`, class `SudokuSolver`.
Variables are cells `(row, col)`; the board is a function from cells to
values, `0` meaning empty.
------------------------------------------------------------------ -/

def Board := Nat × Nat → Nat

/-- `self.board[row][col] = v`. -/
def bset (b : Board) (p : Nat × Nat) (v : Nat) : Board :=
  fun q => if q = p then v else b q

/-- The 81 cells, in the row-major order of `self.domains` insertion. -/
def allPos : List (Nat × Nat) :=
  (List.range 9).flatMap (fun r => (List.range 9).map (fun c => (r, c)))

/-- `get_neighbors(pos)`: row, column and 3x3-subgrid peers.  Python
collects them in a `set`, whose iteration order is unspecified; the
embedding fixes row-major order, with the same members. -/
def getNeighbors (pos : Nat × Nat) : List (Nat × Nat) :=
  allPos.filter (fun q =>
    q != pos && (q.1 == pos.1 || q.2 == pos.2 ||
      (q.1 / 3 == pos.1 / 3 && q.2 / 3 == pos.2 / 3)))

/-- `SudokuSolver`'s instantiation of the shared AC-3 data: `revise`
keeps a value iff some neighbour value differs; re-enqueue set
`[k for k in self.get_neighbors(i) if k != j]`. -/
def sudSolver : Solver (Nat × Nat) Nat where
  vars := allPos
  nbrs := getNeighbors
  pred := fun _ _ x y => x != y
  requeue := fun i j => (getNeighbors i).filter (fun k => k != j)
  K := 20

/-- `initialize_domains`: `{1..9}` for an empty cell, the singleton of the
given value otherwise. -/
def initDomains (b : Board) : DState (Nat × Nat) Nat :=
  fun pos => if b pos = 0 then List.range' 1 9 else [b pos]

/-- `is_valid(num, pos)`: row, column and subgrid check against the
current board (index `i` also hits `pos` itself, whose entry is `0` when
the cell is about to be filled). -/
def sudIsValid (num : Nat) (pos : Nat × Nat) (b : Board) : Bool :=
  (List.range 9).all (fun i =>
    num != b (pos.1, i) && num != b (i, pos.2) &&
      num != b (3 * (pos.1 / 3) + i / 3, 3 * (pos.2 / 3) + i % 3))

/-- `select_unassigned_variable`: MRV among the cells still `0` on the
board. -/
def sudSelectVar (b : Board) (st : DState (Nat × Nat) Nat) :
    Option (Nat × Nat) :=
  pickMin (fun c acc => decide ((st c).length < (st acc).length))
    (allPos.filter (fun cell => b cell == 0))

/-- The `for value in sorted(self.domains[(row, col)])` loop of
`backtracking`: board-assign if `is_valid`, run AC-3, recurse (`bt` is
the recursion one fuel level lower); on failure reset the cell to `0` and
"restore" the shallow-copied domains (a no-op, see `sudBacktracking`). -/
def sudLoop (cell : Nat × Nat)
    (bt : Board → DState (Nat × Nat) Nat →
      PyRes (Bool × Board × DState (Nat × Nat) Nat)) :
    List Nat → Board → DState (Nat × Nat) Nat →
      PyRes (Bool × Board × DState (Nat × Nat) Nat)
  | [], b, st => .out (false, b, st)
  | v :: rest, b, st =>
    if sudIsValid v cell b then
      if (ac3Run sudSolver st).1 then
        match bt (bset b cell v) (ac3Run sudSolver st).2 with
        | .out (true, b2, st2) => .out (true, b2, st2)
        | .out (false, b2, st2) => sudLoop cell bt rest (bset b2 cell 0) st2
        | .err => .err
        | .fuelOut => .fuelOut
      else sudLoop cell bt rest b (ac3Run sudSolver st).2
    else sudLoop cell bt rest b st

/-- `SudokuSolver.backtracking`, with explicit fuel.  `backup =
self.domains.copy()` is a SHALLOW dict copy: the per-cell set objects are
shared and `revise` mutates them in place, so `self.domains = backup`
undoes no removal.  The embedding therefore carries the AC-3-mutated
domain store forward instead of restoring it. -/
def sudBacktracking : Nat → Board → DState (Nat × Nat) Nat →
    PyRes (Bool × Board × DState (Nat × Nat) Nat)
  | 0, _, _ => .fuelOut
  | fuel + 1, b, st =>
    if allPos.all (fun p => b p != 0) then .out (true, b, st)
    else
      match sudSelectVar b st with
      | none => .err
      | some cell =>
        sudLoop cell (fun b2 s2 => sudBacktracking fuel b2 s2)
          (List.insertionSort (· ≤ ·) (st cell)) b st

/-- Soundness statement for a Sudoku board: the two cells of every arc
(neighbouring pair) hold different values whenever both are filled. -/
def SudSoundBoard (b : Board) : Prop :=
  ∀ p ∈ allPos, ∀ q ∈ getNeighbors p, b p ≠ 0 → b q ≠ 0 → b p ≠ b q

/-- The searching flag of a `backtracking` result. -/
def sudResFlag : PyRes (Bool × Board × DState (Nat × Nat) Nat) → Option Bool
  | .out (b, _, _) => some b
  | _ => none

/-- One cell of the final board of a `backtracking` result. -/
def sudResCell :
    PyRes (Bool × Board × DState (Nat × Nat) Nat) → Nat × Nat → Option Nat
  | .out (_, b, _), p => some (b p)
  | _, _ => none

/- ------------------------------------------------------------------
`Chapter 5/cryptarithmetic_backtracking/main.py`,
class `CryptarithmeticSolver`, on `['S','E','N','D','M','O','R','Y']`.
------------------------------------------------------------------ -/

inductive Letter where
  | S | E | N | D | M | O | R | Y
deriving DecidableEq, Fintype

/-- `self.variables`. -/
def cryptVariables : List Letter := [.S, .E, .N, .D, .M, .O, .R, .Y]

/-- `create_constraints`: the ordered pairs `(variables[i], variables[j])`
with `i < j`. -/
def createConstraints : List Letter → List (Letter × Letter)
  | [] => []
  | v :: rest => rest.map (fun u => (v, u)) ++ createConstraints rest

def cryptConstraints : List (Letter × Letter) :=
  createConstraints cryptVariables

/-- `CryptarithmeticSolver`'s instantiation of the shared AC-3 data.  Its
`ac3` starts from `self.constraints` (passed as the worklist), and — unlike
the other three solvers — re-enqueues `(xk, xi)` for EVERY `xk != xi`,
including `xj`. -/
def cryptSolver : Solver Letter Nat where
  vars := cryptVariables
  nbrs := fun v => cryptVariables.filter (fun u => u != v)
  pred := fun _ _ x y => x != y
  requeue := fun xi _ => cryptVariables.filter (fun xk => xk != xi)
  K := 8

/-- `self.domains = {var: set(range(10)) for var in variables}`. -/
def cryptInit : DState Letter Nat := fun _ => List.range 10

/-- `select_unassigned_variable(assignment)`: `None` when everything is
assigned, otherwise `min` by domain size over the unassigned variables. -/
def cryptSelectVar (st : DState Letter Nat) (asg : List (Letter × Nat)) :
    Option Letter :=
  pickMin (fun c acc => decide ((st c).length < (st acc).length))
    (cryptVariables.filter (fun v => !(List.lookup v asg).isSome))

/-- Python's `value == self.domains[neighbor]` compares an `int` with a
`set`.  In Python such a cross-type `==` is always `False` (no exception
is raised), so this comparison never holds. -/
def intEqSet (_value : Nat) (_dom : List Nat) : Bool := false

/-- `count_constraints(var, value, assignment)`: iterate the unassigned
neighbours and count those for which `value == self.domains[neighbor]`. -/
def countConstraints (st : DState Letter Nat) (var : Letter) (value : Nat)
    (asg : List (Letter × Nat)) : Nat :=
  ((cryptVariables.filter
      (fun v => v != var && !(List.lookup v asg).isSome)).filter
    (fun neighbor => intEqSet value (st neighbor))).length

/-- `order_domain_values(var, assignment)`: Python `sorted` with the
`count_constraints` key; `sorted` is stable, so equal keys keep the
domain-set iteration order. -/
def orderDomainValues (st : DState Letter Nat) (var : Letter)
    (asg : List (Letter × Nat)) : List Nat :=
  List.insertionSort
    (fun a b => countConstraints st var a asg ≤ countConstraints st var b asg)
    (st var)

/-- Python dict access `assignment[letter]`.  `is_valid_solution` is only
reached on complete assignments, where every letter is a key; the default
`0` is never used there (Python would raise `KeyError`). -/
def lookupD (asg : List (Letter × Nat)) (v : Letter) : Nat :=
  (List.lookup v asg).getD 0

/-- `is_valid_solution(assignment)`: no duplicate digits, no leading
zeros, and `SEND + MORE == MONEY`. -/
def isValidSolution (asg : List (Letter × Nat)) : Bool :=
  if (asg.map Prod.snd).dedup.length < asg.length then false
  else if lookupD asg .S == 0 || lookupD asg .M == 0 then false
  else
    (1000 * lookupD asg .S + 100 * lookupD asg .E + 10 * lookupD asg .N +
        lookupD asg .D) +
      (1000 * lookupD asg .M + 100 * lookupD asg .O + 10 * lookupD asg .R +
        lookupD asg .E) ==
    (10000 * lookupD asg .M + 1000 * lookupD asg .O + 100 * lookupD asg .N +
        10 * lookupD asg .E + lookupD asg .Y)

/-- The `for value in ordered_values` loop of `backtrack`: skip values
already used (`all(value != assignment.get(neigh) for neigh in
assignment)`), assign, run `ac3` on `self.constraints`, recurse (`bt` is
the recursion one fuel level lower, on the AC-3-propagated domains and
the extended assignment); restore and continue on failure. -/
def cryptLoop (st : DState Letter Nat) (var : Letter)
    (bt : DState Letter Nat → List (Letter × Nat) →
      Option (List (Letter × Nat)))
    (asg : List (Letter × Nat)) :
    List Nat → Option (List (Letter × Nat))
  | [] => none
  | value :: rest =>
    if asg.all (fun p => value != p.2) then
      if (ac3RunQ cryptSolver st cryptConstraints).1 then
        match bt (ac3RunQ cryptSolver st cryptConstraints).2
            (asg ++ [(var, value)]) with
        | some result => some result
        | none => cryptLoop st var bt asg rest
      else cryptLoop st var bt asg rest
    else cryptLoop st var bt asg rest

/-- `CryptarithmeticSolver.backtrack`, with explicit fuel.  The Python
method mutates `assignment` and `self.domains` and restores both on
failure (its domain snapshot is a per-variable deep copy, so that restore
is exact); the embedding passes both functionally. -/
def cryptBacktrack : Nat → DState Letter Nat → List (Letter × Nat) →
    Option (List (Letter × Nat))
  | 0, _, _ => none
  | fuel + 1, st, asg =>
    if asg.length == cryptVariables.length then
      if isValidSolution asg then some asg else none
    else
      match cryptSelectVar st asg with
      | none => none
      | some var =>
        cryptLoop st var (fun st2 asg2 => cryptBacktrack fuel st2 asg2) asg
          (orderDomainValues st var asg)

/-- `solve()`: initial `ac3`, then `backtrack({})`.  Fuel `9` covers the
real recursion depth: one level per assigned letter plus the leaf. -/
def cryptSolve : Option (List (Letter × Nat)) :=
  if (ac3RunQ cryptSolver cryptInit cryptConstraints).1 then
    cryptBacktrack 9 (ac3RunQ cryptSolver cryptInit cryptConstraints).2 []
  else none

/-- The classic SEND+MORE=MONEY solution:
O=0, M=1, Y=2, E=5, N=6, D=7, R=8, S=9. -/
def tSol : Letter → Nat
  | .S => 9
  | .E => 5
  | .N => 6
  | .D => 7
  | .M => 1
  | .O => 0
  | .R => 8
  | .Y => 2

/- ------------------------------------------------------------------
Definitions modelled from the spec's words, for comparison with the
code's behaviour (refinement checks).
------------------------------------------------------------------ -/

/-- Modelled from the spec: the LCV count its description intends — the
number of unassigned neighbouring variables whose domain contains the
value ("rules out" one option there). -/
def specCountConstraints (st : DState Letter Nat) (var : Letter)
    (value : Nat) (asg : List (Letter × Nat)) : Nat :=
  ((cryptVariables.filter
      (fun v => v != var && !(List.lookup v asg).isSome)).filter
    (fun neighbor => (st neighbor).contains value)).length

/-- Modelled from the spec: the arcs the spec says AC-3 appends after a
successful revision — exactly `(Xk, Xi)` for `Xk` a neighbour of `Xi`
other than `Xj`. -/
def specAppendedArcs {V α : Type} [DecidableEq V] (S : Solver V α)
    (xi xj : V) : List (V × V) :=
  ((S.nbrs xi).filter (fun xk => xk != xj)).map (fun xk => (xk, xi))

/-- Modelled from the spec: the MRV selection rule as the spec words it —
fewest remaining values among unassigned variables, ties broken by the
most constraints with OTHER UNASSIGNED variables. -/
def SpecMRVChoice (g : MapGraph) (st : DState Nat Nat) (v : Nat) : Prop :=
  v ∈ (mapVars g).filter (fun c => 1 < (st c).length) ∧
  ∀ u ∈ (mapVars g).filter (fun c => 1 < (st c).length),
    (st v).length < (st u).length ∨
      ((st v).length = (st u).length ∧
        ((mapNbrs g u).filter (fun w => 1 < (st w).length)).length ≤
          ((mapNbrs g v).filter (fun w => 1 < (st w).length)).length)

/- ------------------------------------------------------------------
Concrete instances used by the claim theorems, witnesses and
counterexamples below.
------------------------------------------------------------------ -/

/-- Triangle map, two colors (`0`, `1`): unsatisfiable. -/
def gTriangle : MapGraph := [(0, [1, 2]), (1, [0, 2]), (2, [0, 1])]

/-- Two adjacent countries. -/
def gTwo : MapGraph := [(0, [1]), (1, [0])]

/-- Complete 4-vertex (planar) map, four colors: satisfiable. -/
def gK4 : MapGraph :=
  [(0, [1, 2, 3]), (1, [0, 2, 3]), (2, [0, 1, 3]), (3, [0, 1, 2])]

/-- A map-coloring state where the MRV tie-break matters: countries `0`,
`1`, `4` are unassigned with equal domain sizes; `0` has the largest
total degree but zero unassigned neighbours, `1` and `4` have one
unassigned neighbour each. -/
def gMRV : MapGraph := [(0, [2, 3]), (1, [4]), (2, [0]), (3, [0]), (4, [1])]

def stMRV : DState Nat Nat := fun v =>
  if v = 0 then [0, 1]
  else if v = 1 then [0, 1]
  else if v = 2 then [0]
  else if v = 3 then [1]
  else [0, 1]

/-- A two-variable, two-value instance over `Fin 2` (used to instantiate
the generic AC-3 theorems in witnesses). -/
def pairSolver : Solver (Fin 2) (Fin 2) where
  vars := [0, 1]
  nbrs := fun v => if v = 0 then [1] else [0]
  pred := fun _ _ x y => x != y
  requeue := fun xi xj =>
    (if xi = 0 then [1] else [0]).filter (fun xk => xk != xj)
  K := 1

/-- An already arc-consistent state of `pairSolver`. -/
def pairSt : DState (Fin 2) (Fin 2) := fun v => if v = 0 then [0] else [1]

/-- A state of `pairSolver` whose revision wipes variable `0` out. -/
def pairStWipe : DState (Fin 2) (Fin 2) := fun _ => [0]

/-- The repository's solved Sudoku board (the `Output` comment block of
`Chapter 5/sudoku/main.py`). -/
def solvedRows : List (List Nat) :=
  [[9, 1, 5, 2, 3, 4, 6, 7, 8],
   [6, 8, 3, 7, 1, 9, 2, 4, 5],
   [4, 2, 7, 8, 5, 6, 9, 3, 1],
   [5, 9, 8, 4, 7, 3, 1, 2, 6],
   [7, 6, 4, 9, 2, 1, 5, 8, 3],
   [1, 3, 2, 5, 6, 8, 4, 9, 7],
   [8, 7, 1, 6, 9, 2, 3, 5, 4],
   [3, 4, 9, 1, 8, 5, 7, 6, 2],
   [2, 5, 6, 3, 4, 7, 8, 1, 9]]

def boardOfRows (rows : List (List Nat)) : Board :=
  fun p => (rows.getD p.1 []).getD p.2 0

/-- That valid board with cell `(0,0)` emptied: a 9x9 puzzle with the
unique solution `9` for the hole. -/
def sudBoard1 : Board := bset (boardOfRows solvedRows) (0, 0) 0

/-- The final domain store of a map-coloring `backtrack` result (the
default is returned only for the exception/fuel cases). -/
def mapResState (r : PyRes (Bool × DState Nat Nat)) (dflt : DState Nat Nat) :
    DState Nat Nat :=
  match r with
  | .out (_, st) => st
  | _ => dflt

/-- The flag and the `(0,0)` cell of a `backtracking` result, extracted
together so that one evaluation settles both. -/
def sudResSummary :
    PyRes (Bool × Board × DState (Nat × Nat) Nat) → Option (Bool × Nat)
  | .out (flag, b, _) => some (flag, b (0, 0))
  | _ => none

/-- A cryptarithmetic domain store on which `revise(E, S)` removes a
value: `E`'s domain is `{3, 4}` and `S`'s is `{3}`. -/
def stC6 : DState Letter Nat := fun v =>
  match v with
  | .E => [3, 4]
  | .S => [3]
  | _ => [0]

/-- A `pairSolver` state that one revision makes arc-consistent. -/
def pairStW : DState (Fin 2) (Fin 2) := fun v =>
  if v = 0 then [0, 1] else [0]

/-- The store after running `pairSolver`'s AC-3 on `pairStW`. -/
def pairStW2 : DState (Fin 2) (Fin 2) := (ac3Run pairSolver pairStW).2

/-- The store after the wiped-out run of `pairSolver` on `pairStWipe`. -/
def pairWipeSt : DState (Fin 2) (Fin 2) :=
  ((ac3F pairSolver 3 pairStWipe
      [((0 : Fin 2), (1 : Fin 2))]).getD (true, pairStWipe)).2

/- ------------------------------------------------------------------
Generic lemmas about the shared AC-3 loop and `pickMin`.
------------------------------------------------------------------ -/

@[simp] theorem dset_same {V α : Type} [DecidableEq V] (st : DState V α) (v : V)
    (d : List α) : dset st v d v = d := by
  simp [dset]

@[simp] theorem dset_other {V α : Type} [DecidableEq V] (st : DState V α)
    (v w : V) (d : List α) (h : w ≠ v) : dset st v d w = st w := by
  simp [dset, h]

theorem reviseDomain_sublist {α : Type} (P : α → α → Bool) (di dj : List α) :
    (reviseDomain P di dj).Sublist di :=
  List.filter_sublist di

theorem mem_reviseDomain {α : Type} {P : α → α → Bool} {di dj : List α}
    {x : α} : x ∈ reviseDomain P di dj ↔
      x ∈ di ∧ ∃ y ∈ dj, P x y = true := by
  simp [reviseDomain, List.mem_filter, List.any_eq_true]

theorem reviseDomain_length_lt {α : Type} {P : α → α → Bool} {di dj : List α}
    (h : reviseDomain P di dj ≠ di) :
    (reviseDomain P di dj).length < di.length := by
  have hs := reviseDomain_sublist P di dj
  rcases Nat.lt_or_ge (reviseDomain P di dj).length di.length with h' | h'
  · exact h'
  · exact absurd (hs.eq_of_length (Nat.le_antisymm hs.length_le h')) h

/-- Every state the AC-3 loop produces is a pointwise shrinkage of the
state it started from: values are only ever removed. -/
theorem ac3F_sublist {V α : Type} [DecidableEq V] [DecidableEq α]
    (S : Solver V α) :
    ∀ (fuel : Nat) (st : DState V α) (q : List (V × V)) (b : Bool)
      (st' : DState V α),
      ac3F S fuel st q = some (b, st') → ∀ v, (st' v).Sublist (st v) := by
  intro fuel
  induction fuel with
  | zero => intro st q b st' h; simp [ac3F] at h
  | succ n ih =>
    intro st q b st' h v
    match q with
    | [] =>
      have h' : some ((true : Bool), st) = some (b, st') := h
      have h2 : st = st' := congrArg Prod.snd (Option.some.inj h')
      rw [← h2]
    | (xi, xj) :: rest =>
      simp only [ac3F] at h
      by_cases h1 : reviseDomain (S.pred xi xj) (st xi) (st xj) = st xi
      · rw [if_pos h1] at h
        exact ih st rest b st' h v
      · rw [if_neg h1] at h
        by_cases h2 : reviseDomain (S.pred xi xj) (st xi) (st xj) = []
        · rw [if_pos h2] at h
          simp only [Option.some.injEq, Prod.mk.injEq] at h
          rw [← h.2]
          by_cases hv : v = xi
          · subst hv
            simp only [dset_same]
            exact reviseDomain_sublist _ _ _
          · rw [dset_other _ _ _ _ hv]
        · rw [if_neg h2] at h
          have hsub := ih _ _ _ _ h v
          by_cases hv : v = xi
          · subst hv
            rw [dset_same] at hsub
            exact hsub.trans (reviseDomain_sublist _ _ _)
          · rwa [dset_other _ _ _ _ hv] at hsub

/-- If the loop returns `True`, no revision emptied a domain: any variable
whose final domain is empty already had an empty domain at entry. -/
theorem ac3F_true_nonempty {V α : Type} [DecidableEq V] [DecidableEq α]
    (S : Solver V α) :
    ∀ (fuel : Nat) (st : DState V α) (q : List (V × V)) (st' : DState V α),
      ac3F S fuel st q = some (true, st') → ∀ v, st' v = [] → st v = [] := by
  intro fuel
  induction fuel with
  | zero => intro st q st' h; simp [ac3F] at h
  | succ n ih =>
    intro st q st' h v hv
    match q with
    | [] =>
      have h' : some ((true : Bool), st) = some (true, st') := h
      have h2 : st = st' := congrArg Prod.snd (Option.some.inj h')
      exact (congrFun h2 v).trans hv
    | (xi, xj) :: rest =>
      simp only [ac3F] at h
      by_cases h1 : reviseDomain (S.pred xi xj) (st xi) (st xj) = st xi
      · rw [if_pos h1] at h
        exact ih st rest st' h v hv
      · rw [if_neg h1] at h
        by_cases h2 : reviseDomain (S.pred xi xj) (st xi) (st xj) = []
        · rw [if_pos h2] at h
          simp at h
        · rw [if_neg h2] at h
          have := ih _ _ _ h v hv
          by_cases hvx : v = xi
          · subst hvx
            rw [dset_same] at this
            exact absurd this h2
          · rwa [dset_other _ _ _ _ hvx] at this

/-- If the loop returns `False`, the revision that stopped it emptied some
variable's domain: a variable exists that had candidates at entry and has
none in the final state. -/
theorem ac3F_false_wipe {V α : Type} [DecidableEq V] [DecidableEq α]
    (S : Solver V α) :
    ∀ (fuel : Nat) (st : DState V α) (q : List (V × V)) (st' : DState V α),
      ac3F S fuel st q = some (false, st') →
      ∃ v, st v ≠ [] ∧ st' v = [] := by
  intro fuel
  induction fuel with
  | zero => intro st q st' h; simp [ac3F] at h
  | succ n ih =>
    intro st q st' h
    match q with
    | [] => simp [ac3F] at h
    | (xi, xj) :: rest =>
      simp only [ac3F] at h
      by_cases h1 : reviseDomain (S.pred xi xj) (st xi) (st xj) = st xi
      · rw [if_pos h1] at h
        exact ih st rest st' h
      · rw [if_neg h1] at h
        by_cases h2 : reviseDomain (S.pred xi xj) (st xi) (st xj) = []
        · rw [if_pos h2] at h
          simp only [Option.some.injEq, Prod.mk.injEq] at h
          refine ⟨xi, ?_, ?_⟩
          · intro he
            apply h1
            rw [he] at h2 ⊢
            exact h2
          · rw [← h.2, dset_same]
            exact h2
        · rw [if_neg h2] at h
          obtain ⟨v, hv1, hv2⟩ := ih _ _ _ h
          refine ⟨v, ?_, hv2⟩
          intro he
          apply hv1
          by_cases hvx : v = xi
          · subst hvx
            rw [dset_same, reviseDomain, he]
            rfl
          · rw [dset_other _ _ _ _ hvx]
            exact he

theorem sumLen_dset_le {V α : Type} [DecidableEq V] (l : List V)
    (st : DState V α) (xi : V) (d : List α)
    (hle : d.length ≤ (st xi).length) :
    (l.map (fun v => (dset st xi d v).length)).sum ≤
      (l.map (fun v => (st v).length)).sum := by
  induction l with
  | nil => simp
  | cons a t iht =>
    simp only [List.map_cons, List.sum_cons]
    by_cases ha : a = xi
    · subst ha
      rw [dset_same]
      exact Nat.add_le_add hle iht
    · rw [dset_other _ _ _ _ ha]
      exact Nat.add_le_add_left iht _

theorem sumLen_dset_lt {V α : Type} [DecidableEq V] (l : List V)
    (st : DState V α) (xi : V) (d : List α) (hmem : xi ∈ l)
    (hlt : d.length < (st xi).length) :
    (l.map (fun v => (dset st xi d v).length)).sum + 1 ≤
      (l.map (fun v => (st v).length)).sum := by
  induction l with
  | nil => simp at hmem
  | cons a t iht =>
    simp only [List.map_cons, List.sum_cons]
    by_cases ha : a = xi
    · subst ha
      rw [dset_same]
      have := sumLen_dset_le t st a d (Nat.le_of_lt hlt)
      omega
    · rw [dset_other _ _ _ _ ha]
      rcases List.mem_cons.mp hmem with h | h
      · exact absurd h.symm ha
      · have := iht h
        omega

/-- Termination of the AC-3 worklist loop: whenever every arc on the
worklist starts at a solver variable and the solver's re-enqueue sets stay
inside the variables and below the length bound `K`, the fuel
`totalSize * (K + 1) + |queue| + 1` is enough for the loop to finish. -/
theorem ac3F_isSome_of_bound {V α : Type} [DecidableEq V] [DecidableEq α]
    (S : Solver V α)
    (hreq_vars : ∀ xi xj, ∀ xk ∈ S.requeue xi xj, xk ∈ S.vars)
    (hreq_len : ∀ xi xj, (S.requeue xi xj).length ≤ S.K) :
    ∀ (n : Nat) (st : DState V α) (q : List (V × V)),
      (∀ p ∈ q, p.1 ∈ S.vars) →
      totalSize S st * (S.K + 1) + q.length ≤ n →
      (ac3F S (n + 1) st q).isSome := by
  intro n
  induction n using Nat.strong_induction_on with
  | _ n ih =>
    intro st q hq hbound
    match q with
    | [] => simp [ac3F]
    | (xi, xj) :: rest =>
      have hxi : xi ∈ S.vars := hq (xi, xj) (List.mem_cons_self _ _)
      have hrest : ∀ p ∈ rest, p.1 ∈ S.vars :=
        fun p hp => hq p (List.mem_cons_of_mem _ hp)
      have hn1 : 1 ≤ n := by
        simp only [List.length_cons] at hbound
        omega
      obtain ⟨m, rfl⟩ : ∃ m, n = m + 1 := ⟨n - 1, by omega⟩
      simp only [ac3F]
      by_cases h1 : reviseDomain (S.pred xi xj) (st xi) (st xj) = st xi
      · rw [if_pos h1]
        apply ih m (by omega) st rest hrest
        simp only [List.length_cons] at hbound
        omega
      · rw [if_neg h1]
        by_cases h2 : reviseDomain (S.pred xi xj) (st xi) (st xj) = []
        · rw [if_pos h2]; simp
        · rw [if_neg h2]
          have hlt : (reviseDomain (S.pred xi xj) (st xi) (st xj)).length <
              (st xi).length := reviseDomain_length_lt h1
          have hshrink := sumLen_dset_lt S.vars st xi
            (reviseDomain (S.pred xi xj) (st xi) (st xj)) hxi hlt
          apply ih m (by omega)
          · intro p hp
            rcases List.mem_append.mp hp with h | h
            · exact hrest p h
            · simp only [appendedArcs, List.mem_map] at h
              obtain ⟨xk, hxk, rfl⟩ := h
              exact hreq_vars xi xj xk hxk
          · have hq1 : (rest ++ appendedArcs S xi xj).length ≤
                rest.length + S.K := by
              simp only [List.length_append, appendedArcs, List.length_map]
              exact Nat.add_le_add_left (hreq_len xi xj) _
            have hmul : totalSize S
                  (dset st xi (reviseDomain (S.pred xi xj) (st xi) (st xj)))
                  * (S.K + 1) + (S.K + 1) ≤
                totalSize S st * (S.K + 1) := by
              have hstep : totalSize S
                  (dset st xi (reviseDomain (S.pred xi xj) (st xi) (st xj)))
                  + 1 ≤ totalSize S st := hshrink
              calc totalSize S
                    (dset st xi (reviseDomain (S.pred xi xj) (st xi) (st xj)))
                    * (S.K + 1) + (S.K + 1)
                  = (totalSize S
                      (dset st xi (reviseDomain (S.pred xi xj) (st xi) (st xj)))
                      + 1) * (S.K + 1) := by ring
                _ ≤ totalSize S st * (S.K + 1) :=
                    Nat.mul_le_mul_right _ hstep
            simp only [List.length_cons] at hbound
            omega

theorem mem_initArcs {V α : Type} {S : Solver V α} {a b : V} :
    (a, b) ∈ initArcs S ↔ a ∈ S.vars ∧ b ∈ S.nbrs a := by
  simp only [initArcs, List.mem_flatMap, List.mem_map, Prod.mk.injEq]
  constructor
  · rintro ⟨xi, hxi, xj, hxj, rfl, rfl⟩
    exact ⟨hxi, hxj⟩
  · rintro ⟨ha, hb⟩
    exact ⟨a, ha, b, hb, rfl, rfl⟩

theorem reviseDomain_eq_self {α : Type} {P : α → α → Bool} {di dj : List α} :
    reviseDomain P di dj = di ↔ ∀ x ∈ di, ∃ y ∈ dj, P x y = true := by
  unfold reviseDomain
  rw [List.filter_eq_self]
  constructor
  · intro h x hx
    simpa [List.any_eq_true] using h x hx
  · intro h x hx
    simpa [List.any_eq_true] using h x hx

/-- More fuel never changes the result of the worklist loop. -/
theorem ac3F_mono {V α : Type} [DecidableEq V] [DecidableEq α]
    (S : Solver V α) :
    ∀ (n m : Nat) (st : DState V α) (q : List (V × V))
      (r : Bool × DState V α),
      ac3F S n st q = some r → n ≤ m → ac3F S m st q = some r := by
  intro n
  induction n with
  | zero => intro m st q r h; simp [ac3F] at h
  | succ n ih =>
    intro m st q r h hle
    obtain ⟨m', rfl⟩ : ∃ m', m = m' + 1 := ⟨m - 1, by omega⟩
    match q with
    | [] => exact h
    | (xi, xj) :: rest =>
      simp only [ac3F] at h ⊢
      by_cases h1 : reviseDomain (S.pred xi xj) (st xi) (st xj) = st xi
      · rw [if_pos h1] at h ⊢
        exact ih m' st rest r h (by omega)
      · rw [if_neg h1] at h ⊢
        by_cases h2 : reviseDomain (S.pred xi xj) (st xi) (st xj) = []
        · rw [if_pos h2] at h ⊢
          exact h
        · rw [if_neg h2] at h ⊢
          exact ih m' _ _ r h (by omega)

/-- On a state whose worklist arcs are all already consistent, the loop
pops every arc without revising anything and returns `True` with the state
untouched. -/
theorem ac3F_of_consistent {V α : Type} [DecidableEq V] [DecidableEq α]
    (S : Solver V α) :
    ∀ (q : List (V × V)) (st : DState V α),
      (∀ p ∈ q, Consistent S st p.1 p.2) →
      ac3F S (q.length + 1) st q = some (true, st) := by
  intro q
  induction q with
  | nil => intro st _; simp [ac3F]
  | cons p rest ihq =>
    obtain ⟨xi, xj⟩ := p
    intro st hcons
    have hc : Consistent S st xi xj := hcons (xi, xj) (List.mem_cons_self _ _)
    have h1 : reviseDomain (S.pred xi xj) (st xi) (st xj) = st xi :=
      reviseDomain_eq_self.mpr hc
    simp only [List.length_cons, ac3F]
    rw [if_pos h1]
    exact ihq st (fun p hp => hcons p (List.mem_cons_of_mem _ hp))

/-- The AC-3 worklist invariant: when the loop finishes with `True`, every
arc of the constraint graph is consistent in the final state.  Hypotheses:
the arc predicate is symmetric, no variable neighbours itself, the
re-enqueue set covers every in-neighbour of the revised variable other than
the partner `xj` of the processed arc, and never contains the revised
variable itself.  All four solver instances satisfy them. -/
theorem ac3F_fixpoint {V α : Type} [DecidableEq V] [DecidableEq α]
    (S : Solver V α)
    (hsym : ∀ a b x y, S.pred a b x y = S.pred b a y x)
    (hirr : ∀ a, a ∉ S.nbrs a)
    (hcov : ∀ xi xj a, a ∈ S.vars → a ≠ xi → a ≠ xj → xi ∈ S.nbrs a →
      a ∈ S.requeue xi xj)
    (hreqne : ∀ xi xj a, a ∈ S.requeue xi xj → a ≠ xi) :
    ∀ (fuel : Nat) (st : DState V α) (q : List (V × V)) (st' : DState V α),
      (∀ p ∈ q, p.1 ≠ p.2) →
      (∀ a ∈ S.vars, ∀ b ∈ S.nbrs a, Consistent S st a b ∨ (a, b) ∈ q) →
      ac3F S fuel st q = some (true, st') →
      ∀ a ∈ S.vars, ∀ b ∈ S.nbrs a, Consistent S st' a b := by
  intro fuel
  induction fuel with
  | zero => intro st q st' _ _ h; simp [ac3F] at h
  | succ n ih =>
    intro st q st' hqok hinv h
    match q with
    | [] =>
      have h' : some ((true : Bool), st) = some (true, st') := h
      have h2 : st = st' := congrArg Prod.snd (Option.some.inj h')
      intro a ha b hb
      rcases hinv a ha b hb with hc | hin
      · rwa [← h2]
      · simp at hin
    | (xi, xj) :: rest =>
      have hij : xi ≠ xj := hqok (xi, xj) (List.mem_cons_self _ _)
      simp only [ac3F] at h
      by_cases h1 : reviseDomain (S.pred xi xj) (st xi) (st xj) = st xi
      · rw [if_pos h1] at h
        apply ih st rest st'
          (fun p hp => hqok p (List.mem_cons_of_mem _ hp)) ?_ h
        intro a ha b hb
        rcases hinv a ha b hb with hc | hin
        · exact Or.inl hc
        · rcases List.mem_cons.mp hin with heq | hmem
          · obtain ⟨rfl, rfl⟩ := Prod.mk.injEq .. ▸ heq
            exact Or.inl (reviseDomain_eq_self.mp h1)
          · exact Or.inr hmem
      · rw [if_neg h1] at h
        by_cases h2 : reviseDomain (S.pred xi xj) (st xi) (st xj) = []
        · rw [if_pos h2] at h
          simp at h
        · rw [if_neg h2] at h
          apply ih _ _ _ ?_ ?_ h
          · intro p hp
            rcases List.mem_append.mp hp with hm | hm
            · exact hqok p (List.mem_cons_of_mem _ hm)
            · simp only [appendedArcs, List.mem_map] at hm
              obtain ⟨xk, hxk, rfl⟩ := hm
              exact hreqne xi xj xk hxk
          · intro a ha b hb
            have hab : a ≠ b := fun he => hirr a (he ▸ hb)
            rcases hinv a ha b hb with hc | hin
            · -- the arc was consistent before this revision
              by_cases hbxi : b = xi
              · subst hbxi
                by_cases haxj : a = xj
                · subst haxj
                  -- arc (xj, b) where b's domain just shrank: surviving
                  -- supports still support, by predicate symmetry
                  refine Or.inl ?_
                  intro v hv
                  rw [dset_other _ _ _ _ hij.symm] at hv
                  obtain ⟨w, hw, hpw⟩ := hc v hv
                  refine ⟨w, ?_, hpw⟩
                  rw [dset_same]
                  rw [mem_reviseDomain]
                  refine ⟨hw, ⟨v, hv, ?_⟩⟩
                  rw [← hsym a b v w]
                  exact hpw
                · -- arc (a, b) with a ≠ xj: the loop re-enqueues it
                  refine Or.inr ?_
                  apply List.mem_append_right
                  simp only [appendedArcs, List.mem_map]
                  exact ⟨a, hcov b xj a ha hab haxj hb, rfl⟩
              · -- b's domain unchanged, a's can only have shrunk
                refine Or.inl ?_
                intro x hx
                have hx' : x ∈ st a := by
                  by_cases haxi : a = xi
                  · subst haxi
                    rw [dset_same] at hx
                    exact (mem_reviseDomain.mp hx).1
                  · rwa [dset_other _ _ _ _ haxi] at hx
                obtain ⟨y, hy, hp⟩ := hc x hx'
                refine ⟨y, ?_, hp⟩
                rw [dset_other _ _ _ _ hbxi]
                exact hy
            · rcases List.mem_cons.mp hin with heq | hmem
              · -- the processed arc itself is consistent after revision
                obtain ⟨rfl, rfl⟩ := Prod.mk.injEq .. ▸ heq
                refine Or.inl ?_
                intro x hx
                rw [dset_same] at hx
                obtain ⟨-, y, hy, hp⟩ := mem_reviseDomain.mp hx
                refine ⟨y, ?_, hp⟩
                rw [dset_other _ _ _ _ (Ne.symm hij)]
                exact hy
              · exact Or.inr (List.mem_append_left _ hmem)

/-- If the fuel-bounded wrapper reports `True`, the underlying loop really
finished with that result (the wrapper's default result has first
component `False`). -/
theorem ac3RunQ_eq_some {V α : Type} [DecidableEq V] [DecidableEq α]
    {S : Solver V α} {st st' : DState V α} {q : List (V × V)}
    (h : ac3RunQ S st q = (true, st')) :
    ac3F S (ac3Bound S st q) st q = some (true, st') := by
  unfold ac3RunQ at h
  cases hopt : ac3F S (ac3Bound S st q) st q with
  | none =>
    rw [hopt] at h
    simp at h
  | some r =>
    rw [hopt] at h
    simp only [Option.getD_some] at h
    rw [h]

theorem foldl_min_spec {V : Type} (lt : V → V → Bool)
    (htrans : ∀ a b c, lt a b = true → lt b c = true → lt a c = true)
    (hneg : ∀ a b c, lt a b = false → lt b c = false → lt a c = false)
    (hirr : ∀ a, lt a a = false) :
    ∀ (t : List V) (acc : V),
      (t.foldl (fun a c => if lt c a then c else a) acc = acc ∨
        t.foldl (fun a c => if lt c a then c else a) acc ∈ t) ∧
      (∀ d, d = acc ∨ d ∈ t →
        lt d (t.foldl (fun a c => if lt c a then c else a) acc) = false) := by
  intro t
  induction t with
  | nil =>
    intro acc
    refine ⟨Or.inl rfl, ?_⟩
    intro d hd
    rcases hd with rfl | h
    · exact hirr d
    · simp at h
  | cons c t' iht =>
    intro acc
    simp only [List.foldl_cons]
    cases hlt : lt c acc with
    | false =>
      rw [if_neg Bool.false_ne_true]
      obtain ⟨hm, hmin⟩ := iht acc
      constructor
      · rcases hm with h | h
        · exact Or.inl h
        · exact Or.inr (List.mem_cons_of_mem _ h)
      · intro d hd
        rcases hd with rfl | hd'
        · exact hmin d (Or.inl rfl)
        · rcases List.mem_cons.mp hd' with rfl | hmem
          · exact hneg _ _ _ hlt (hmin acc (Or.inl rfl))
          · exact hmin d (Or.inr hmem)
    | true =>
      rw [if_pos rfl]
      obtain ⟨hm, hmin⟩ := iht c
      constructor
      · rcases hm with h | h
        · right; rw [h]; exact List.mem_cons_self _ _
        · exact Or.inr (List.mem_cons_of_mem _ h)
      · intro d hd
        rcases hd with rfl | hd'
        · cases hda : lt d (t'.foldl (fun a c => if lt c a then c else a) c)
          with
          | false => rfl
          | true =>
            have hcr := htrans c d _ hlt hda
            rw [hmin c (Or.inl rfl)] at hcr
            exact absurd hcr Bool.false_ne_true
        · rcases List.mem_cons.mp hd' with rfl | hmem
          · exact hmin d (Or.inl rfl)
          · exact hmin d (Or.inr hmem)

/-- `pickMin` returns an element of the list whose key no other element
strictly beats — the defining property of Python's `min` with a key
function, up to which tied element is produced. -/
theorem pickMin_spec {V : Type} (lt : V → V → Bool)
    (htrans : ∀ a b c, lt a b = true → lt b c = true → lt a c = true)
    (hneg : ∀ a b c, lt a b = false → lt b c = false → lt a c = false)
    (hirr : ∀ a, lt a a = false) :
    ∀ (l : List V) (r : V), pickMin lt l = some r →
      r ∈ l ∧ ∀ c ∈ l, lt c r = false := by
  intro l r h
  match l with
  | [] => simp [pickMin] at h
  | v :: rest =>
    simp only [pickMin, Option.some.injEq] at h
    obtain ⟨hm, hmin⟩ := foldl_min_spec lt htrans hneg hirr rest v
    rw [← h]
    constructor
    · rcases hm with h2 | h2
      · rw [h2]; exact List.mem_cons_self _ _
      · exact List.mem_cons_of_mem _ h2
    · intro c hc
      rcases List.mem_cons.mp hc with rfl | hmem
      · exact hmin c (Or.inl rfl)
      · exact hmin c (Or.inr hmem)

theorem bne_symm {α : Type} [DecidableEq α] (x y : α) :
    (x != y) = (y != x) := by
  by_cases h : x = y
  · subst h; rfl
  · rw [bne_iff_ne.mpr h, bne_iff_ne.mpr (Ne.symm h)]

/- ------------------------------------------------------------------
Lemmas about the `MapColoring` instantiation.
------------------------------------------------------------------ -/

theorem mapSolver_pred_symm (g : MapGraph) :
    ∀ a b x y, (mapSolver g).pred a b x y = (mapSolver g).pred b a y x :=
  fun _ _ x y => bne_symm x y

theorem mapSolver_requeue_mem {g : MapGraph} {xi xj a : Nat} :
    a ∈ (mapSolver g).requeue xi xj ↔ a ∈ mapNbrs g xi ∧ a ≠ xj := by
  simp [mapSolver, List.mem_filter, bne_iff_ne]

/-- With a symmetric, irreflexive map graph, an AC-3 pass that returns
`True` leaves every arc of the graph consistent. -/
theorem mapAc3_fixpoint (g : MapGraph)
    (hsymG : ∀ a b, b ∈ mapNbrs g a → a ∈ mapNbrs g b)
    (hirrG : ∀ a, a ∉ mapNbrs g a)
    {st st' : DState Nat Nat}
    (h : ac3Run (mapSolver g) st = (true, st')) :
    ∀ a ∈ mapVars g, ∀ b ∈ mapNbrs g a,
      Consistent (mapSolver g) st' a b := by
  have h1 := ac3RunQ_eq_some h
  refine ac3F_fixpoint (mapSolver g) (mapSolver_pred_symm g) hirrG ?_ ?_ _
    st _ st' ?_ ?_ h1
  · intro xi xj a _ _ haj hmem
    exact mapSolver_requeue_mem.mpr ⟨hsymG a xi hmem, haj⟩
  · intro xi xj a hmem he
    obtain ⟨hn, _⟩ := mapSolver_requeue_mem.mp hmem
    subst he
    exact hirrG a hn
  · intro p hp
    obtain ⟨a, b⟩ := p
    obtain ⟨ha, hb⟩ := mem_initArcs.mp hp
    intro he
    have he' : a = b := he
    subst he'
    exact hirrG a hb
  · intro a ha b hb
    exact Or.inr (mem_initArcs.mpr ⟨ha, hb⟩)

/-- Arc-consistency of all graph arcs gives the soundness property: any
two singleton endpoint domains of an arc hold different colors. -/
theorem mapConsistentSound (g : MapGraph) {st : DState Nat Nat}
    (hcons : ∀ a ∈ mapVars g, ∀ b ∈ mapNbrs g a,
      Consistent (mapSolver g) st a b) :
    MapSoundState g st := by
  intro a ha b hb x y hx hy
  obtain ⟨y', hy', hp⟩ := hcons a ha b hb x
    (by rw [hx]; exact List.mem_singleton_self x)
  rw [hy] at hy'
  have hyy : y' = y := List.mem_singleton.mp hy'
  subst hyy
  exact bne_iff_ne.mp hp

/-- Soundness of the color loop: a `True` exit can only come from a
recursive `backtrack` call made right after an AC-3 pass that returned
`True`, so the final state is sound whatever happened before. -/
theorem mapLoop_sound (g : MapGraph)
    (hsymG : ∀ a b, b ∈ mapNbrs g a → a ∈ mapNbrs g b)
    (hirrG : ∀ a, a ∉ mapNbrs g a)
    (bt : DState Nat Nat → PyRes (Bool × DState Nat Nat))
    (hbt : ∀ st st', bt st = .out (true, st') →
      ((mapVars g).all (fun c => (st c).length == 1) = true →
        MapSoundState g st) → MapSoundState g st') :
    ∀ (colors : List Nat) (country : Nat) (orig : List Nat)
      (st st' : DState Nat Nat),
      mapLoop g country orig bt colors st = .out (true, st') →
      MapSoundState g st' := by
  intro colors
  induction colors with
  | nil =>
    intro country orig st st' h
    have h' : PyRes.out ((false : Bool), st) = .out (true, st') := h
    obtain ⟨hb, -⟩ := Prod.mk.injEq .. ▸ PyRes.out.inj h'
    exact absurd hb Bool.false_ne_true
  | cons color rest ihc =>
    intro country orig st st' h
    rw [mapLoop] at h
    by_cases hcons : mapIsConsistent g st country color = true
    · rw [if_pos hcons] at h
      by_cases hac : (ac3Run (mapSolver g) (mapAssign st country color)).1
          = true
      · rw [if_pos hac] at h
        cases hbtres : bt (ac3Run (mapSolver g)
            (mapAssign st country color)).2 with
        | out p =>
          obtain ⟨b2, st2⟩ := p
          cases b2 with
          | true =>
            rw [hbtres] at h
            have h' : PyRes.out ((true : Bool), st2) = .out (true, st') := h
            have hst : st2 = st' := congrArg Prod.snd (PyRes.out.inj h')
            subst hst
            refine hbt _ _ hbtres (fun _ => ?_)
            have hfx : ac3Run (mapSolver g) (mapAssign st country color) =
                (true,
                  (ac3Run (mapSolver g) (mapAssign st country color)).2) := by
              rw [← hac]
            exact mapConsistentSound g (mapAc3_fixpoint g hsymG hirrG hfx)
          | false =>
            rw [hbtres] at h
            exact ihc _ _ _ _ h
        | err =>
          rw [hbtres] at h
          exact PyRes.noConfusion (h : PyRes.err = _)
        | fuelOut =>
          rw [hbtres] at h
          exact PyRes.noConfusion (h : PyRes.fuelOut = _)
      · rw [if_neg hac] at h
        exact ihc _ _ _ _ h
    · rw [if_neg hcons] at h
      exact ihc _ _ _ _ h

/-- Soundness of `MapColoring.backtrack`: if it returns `True` from a
state whose possibly-already-complete assignment is sound (for example
any state with at least two colors left everywhere), the final complete
state satisfies every arc. -/
theorem mapBacktrack_sound (g : MapGraph)
    (hsymG : ∀ a b, b ∈ mapNbrs g a → a ∈ mapNbrs g b)
    (hirrG : ∀ a, a ∉ mapNbrs g a) :
    ∀ (fuel : Nat) (st st' : DState Nat Nat),
      mapBacktrack g fuel st = .out (true, st') →
      ((mapVars g).all (fun c => (st c).length == 1) = true →
        MapSoundState g st) →
      MapSoundState g st' := by
  intro fuel
  induction fuel with
  | zero =>
    intro st st' h _
    exact PyRes.noConfusion (h : PyRes.fuelOut = _)
  | succ n ih =>
    intro st st' h h0
    rw [mapBacktrack] at h
    by_cases hall : (mapVars g).all (fun c => (st c).length == 1) = true
    · rw [if_pos hall] at h
      have h' : PyRes.out ((true : Bool), st) = .out (true, st') := h
      have hst : st = st' := congrArg Prod.snd (PyRes.out.inj h')
      subst hst
      exact h0 hall
    · rw [if_neg hall] at h
      cases hsel : mapSelectVar g st with
      | none =>
        rw [hsel] at h
        exact PyRes.noConfusion (h : PyRes.err = _)
      | some country =>
        rw [hsel] at h
        exact mapLoop_sound g hsymG hirrG _
          (fun s1 s2 hb hs => ih s1 s2 hb hs) _ _ _ _ _ h

/- ------------------------------------------------------------------
Lemmas about the `NQueensSolver` instantiation.
------------------------------------------------------------------ -/

theorem pickMin_mem {V : Type} (lt : V → V → Bool) :
    ∀ (l : List V) (r : V), pickMin lt l = some r → r ∈ l := by
  have hfold : ∀ (t : List V) (acc : V),
      t.foldl (fun a c => if lt c a then c else a) acc = acc ∨
      t.foldl (fun a c => if lt c a then c else a) acc ∈ t := by
    intro t
    induction t with
    | nil => intro acc; exact Or.inl rfl
    | cons c t' iht =>
      intro acc
      simp only [List.foldl_cons]
      rcases iht (if lt c acc then c else acc) with h | h
      · rw [h]
        by_cases hc : lt c acc = true
        · rw [if_pos hc]; exact Or.inr (List.mem_cons_self _ _)
        · rw [if_neg hc]; exact Or.inl rfl
      · exact Or.inr (List.mem_cons_of_mem _ h)
  intro l r h
  match l with
  | [] => simp [pickMin] at h
  | v :: rest =>
    simp only [pickMin, Option.some.injEq] at h
    rw [← h]
    rcases hfold rest v with h2 | h2
    · rw [h2]; exact List.mem_cons_self _ _
    · exact List.mem_cons_of_mem _ h2

theorem isValidAssignment_symm (r1 r2 c1 c2 : Nat) :
    isValidAssignment r1 r2 c1 c2 = isValidAssignment r2 r1 c2 c1 := by
  unfold isValidAssignment
  rw [bne_symm r1 r2, Nat.dist_comm r1 r2, Nat.dist_comm c1 c2]

/-- What `is_consistent(column, row)` checks: validity of `row` against
every other committed column. -/
theorem nqIsConsistent_spec {n : Nat} {st : DState Nat Nat}
    {column row : Nat} (h : nqIsConsistent n st column row = true) :
    ∀ col ∈ List.range n, col ≠ column → ∀ r2, st col = [r2] →
      isValidAssignment row r2 column col = true := by
  intro col hcol hne r2 hr2
  have hc := List.all_eq_true.mp h col hcol
  have hA : (col != column) = true := bne_iff_ne.mpr hne
  simp only [hr2, hA, List.length_cons, List.length_nil, List.headD_cons,
    beq_self_eq_true, Bool.true_and, Bool.and_self, Bool.not_not,
    Bool.not_eq_true'] at hc
  simpa using hc

/-- Committing a row that passed `is_consistent` preserves pairwise
validity of the committed columns. -/
theorem nqSound_assign {n : Nat} {st : DState Nat Nat} {column row : Nat}
    (hs : NQSoundState n st)
    (hcons : nqIsConsistent n st column row = true) :
    NQSoundState n (dset st column [row]) := by
  intro c1 h1 c2 h2 hne r1 r2 hr1 hr2
  by_cases e1 : c1 = column
  · subst e1
    rw [dset_same] at hr1
    injection hr1 with hrow _
    subst hrow
    have e2 : c2 ≠ c1 := Ne.symm hne
    rw [dset_other _ _ _ _ e2] at hr2
    exact nqIsConsistent_spec hcons c2 h2 e2 r2 hr2
  · rw [dset_other _ _ _ _ e1] at hr1
    by_cases e2 : c2 = column
    · subst e2
      rw [dset_same] at hr2
      injection hr2 with hrow _
      subst hrow
      rw [isValidAssignment_symm]
      exact nqIsConsistent_spec hcons c1 h1 e1 r1 hr1
    · rw [dset_other _ _ _ _ e2] at hr2
      exact hs c1 h1 c2 h2 hne r1 r2 hr1 hr2

/-- Restoring a saved domain of size greater than one preserves pairwise
validity (the restored column is no longer committed). -/
theorem nqSound_restore {n : Nat} {st : DState Nat Nat} {column : Nat}
    {orig : List Nat} (horig : 1 < orig.length) (hs : NQSoundState n st) :
    NQSoundState n (dset st column orig) := by
  intro c1 h1 c2 h2 hne r1 r2 hr1 hr2
  by_cases e1 : c1 = column
  · subst e1
    rw [dset_same] at hr1
    rw [hr1] at horig
    simp at horig
  · rw [dset_other _ _ _ _ e1] at hr1
    by_cases e2 : c2 = column
    · subst e2
      rw [dset_same] at hr2
      rw [hr2] at horig
      simp at horig
    · rw [dset_other _ _ _ _ e2] at hr2
      exact hs c1 h1 c2 h2 hne r1 r2 hr1 hr2

/-- The dict built at the all-singleton base case inherits pairwise
validity from the state. -/
theorem nqDict_sound {n : Nat} {st : DState Nat Nat}
    (hall : ((List.range n).all fun col => (st col).length == 1) = true)
    (hs : NQSoundState n st) :
    NQSoundDict ((List.range n).map fun col => (col, (st col).headD 0)) := by
  intro p1 hp1 p2 hp2 hne
  simp only [List.mem_map] at hp1 hp2
  obtain ⟨c1, hc1, rfl⟩ := hp1
  obtain ⟨c2, hc2, rfl⟩ := hp2
  have h1 := List.all_eq_true.mp hall c1 hc1
  have h2 := List.all_eq_true.mp hall c2 hc2
  obtain ⟨r1, hr1⟩ := List.length_eq_one.mp (by simpa using h1)
  obtain ⟨r2, hr2⟩ := List.length_eq_one.mp (by simpa using h2)
  have hne' : c1 ≠ c2 := hne
  show isValidAssignment ((st c1).headD 0) ((st c2).headD 0) c1 c2 = true
  rw [hr1, hr2]
  simp only [List.headD_cons]
  exact hs c1 hc1 c2 hc2 hne' r1 r2 hr1 hr2

/-- Soundness of the row loop: a non-empty dict can only come from a
recursive call made on a state whose committed columns stay pairwise
valid. -/
theorem nqLoop_sound (n : Nat)
    (bt : DState Nat Nat → PyRes (List (Nat × Nat)))
    (hbt : ∀ st d, bt st = .out d → d ≠ [] → NQSoundState n st →
      NQSoundDict d) :
    ∀ (values : List Nat) (column : Nat) (orig : List Nat)
      (st : DState Nat Nat) (d : List (Nat × Nat)),
      1 < orig.length → NQSoundState n st →
      nqLoop n column orig bt values st = .out d → d ≠ [] →
      NQSoundDict d := by
  intro values
  induction values with
  | nil =>
    intro column orig st d _ _ h hne
    have h' : PyRes.out ([] : List (Nat × Nat)) = .out d := h
    exact absurd (PyRes.out.inj h').symm hne
  | cons row rest ihv =>
    intro column orig st d horig hs h hne
    rw [nqLoop] at h
    by_cases hcons : nqIsConsistent n st column row = true
    · rw [if_pos hcons] at h
      split at h
      next d2 heq =>
        by_cases hd2 : d2.isEmpty = true
        · rw [if_pos hd2] at h
          exact ihv column orig _ d horig
            (nqSound_restore horig (nqSound_assign hs hcons)) h hne
        · rw [if_neg hd2] at h
          have hd : d2 = d := PyRes.out.inj h
          subst hd
          exact hbt _ _ heq hne (nqSound_assign hs hcons)
      next heq => exact PyRes.noConfusion h
      next heq => exact PyRes.noConfusion h
    · rw [if_neg hcons] at h
      exact ihv column orig st d horig hs h hne

/-- Soundness of `NQueensSolver.backtrack`: a non-empty returned dict is
pairwise valid on every pair of distinct columns, provided the committed
columns of the starting state are (the constructor state commits nothing
when `n ≥ 2`, and a single queen when `n = 1`). -/
theorem nqBacktrack_sound (n : Nat) :
    ∀ (fuel : Nat) (st : DState Nat Nat) (d : List (Nat × Nat)),
      nqBacktrack n fuel st = .out d → d ≠ [] → NQSoundState n st →
      NQSoundDict d := by
  intro fuel
  induction fuel with
  | zero =>
    intro st d h _ _
    exact PyRes.noConfusion (h : PyRes.fuelOut = _)
  | succ m ih =>
    intro st d h hne hs
    rw [nqBacktrack] at h
    by_cases hall : ((List.range n).all fun col => (st col).length == 1)
        = true
    · rw [if_pos hall] at h
      have h' : PyRes.out
          ((List.range n).map fun col => (col, (st col).headD 0)) =
          .out d := h
      rw [← PyRes.out.inj h']
      exact nqDict_sound hall hs
    · rw [if_neg hall] at h
      cases hsel : nqSelectVar n st with
      | none =>
        rw [hsel] at h
        exact PyRes.noConfusion (h : PyRes.err = _)
      | some column =>
        rw [hsel] at h
        have hmem := pickMin_mem _ _ _ hsel
        have hlen : 1 < (st column).length := by
          simp only [List.mem_filter] at hmem
          exact of_decide_eq_true hmem.2
        exact nqLoop_sound n _ (fun s2 d2 hb hn2 hs2 => ih s2 d2 hb hn2 hs2)
          _ _ _ _ _ hlen hs h hne

/- ------------------------------------------------------------------
Lemmas about the `SudokuSolver` instantiation.
------------------------------------------------------------------ -/

theorem mem_allPos {p : Nat × Nat} : p ∈ allPos ↔ p.1 < 9 ∧ p.2 < 9 := by
  obtain ⟨r, c⟩ := p
  simp only [allPos, List.mem_flatMap, List.mem_map, List.mem_range,
    Prod.mk.injEq]
  constructor
  · rintro ⟨a, ha, b, hb, rfl, rfl⟩
    exact ⟨ha, hb⟩
  · rintro ⟨hr, hc⟩
    exact ⟨r, hr, c, hc, rfl, rfl⟩

theorem mem_getNeighbors {q pos : Nat × Nat} :
    q ∈ getNeighbors pos ↔
      (q.1 < 9 ∧ q.2 < 9) ∧ q ≠ pos ∧
        (q.1 = pos.1 ∨ q.2 = pos.2 ∨
          (q.1 / 3 = pos.1 / 3 ∧ q.2 / 3 = pos.2 / 3)) := by
  simp only [getNeighbors, List.mem_filter, mem_allPos, Bool.and_eq_true,
    Bool.or_eq_true, beq_iff_eq, bne_iff_ne]
  tauto

theorem getNeighbors_symm {q pos : Nat × Nat} (hp1 : pos.1 < 9)
    (hp2 : pos.2 < 9) (h : q ∈ getNeighbors pos) :
    pos ∈ getNeighbors q := by
  obtain ⟨⟨_, _⟩, hne, hcase⟩ := mem_getNeighbors.mp h
  refine mem_getNeighbors.mpr ⟨⟨hp1, hp2⟩, Ne.symm hne, ?_⟩
  rcases hcase with h1 | h2 | ⟨h3, h4⟩
  · exact Or.inl h1.symm
  · exact Or.inr (Or.inl h2.symm)
  · exact Or.inr (Or.inr ⟨h3.symm, h4.symm⟩)

/-- What `is_valid(num, pos)` guarantees: `num` differs from the board
entry of `pos` itself and of every neighbour of `pos`. -/
theorem sudIsValid_spec {v : Nat} {pos : Nat × Nat} {b : Board}
    (h : sudIsValid v pos b = true) (_h1 : pos.1 < 9) (h2 : pos.2 < 9) :
    v ≠ b pos ∧ ∀ q ∈ getNeighbors pos, v ≠ b q := by
  have hall := List.all_eq_true.mp h
  have hgen : ∀ i ∈ List.range 9,
      v ≠ b (pos.1, i) ∧ v ≠ b (i, pos.2) ∧
        v ≠ b (3 * (pos.1 / 3) + i / 3, 3 * (pos.2 / 3) + i % 3) := by
    intro i hi
    have hx := hall i hi
    simp only [Bool.and_eq_true, bne_iff_ne] at hx
    exact ⟨hx.1.1, hx.1.2, hx.2⟩
  constructor
  · exact (hgen pos.2 (List.mem_range.mpr h2)).1
  · intro q hq
    obtain ⟨⟨hq1, hq2⟩, _, hcase⟩ := mem_getNeighbors.mp hq
    rcases hcase with hr | hc | ⟨hb1, hb2⟩
    · have hx := (hgen q.2 (List.mem_range.mpr hq2)).1
      have he : (pos.1, q.2) = q := Prod.ext hr.symm rfl
      rwa [he] at hx
    · have hx := (hgen q.1 (List.mem_range.mpr hq1)).2.1
      have he : (q.1, pos.2) = q := Prod.ext rfl hc.symm
      rwa [he] at hx
    · have hlt : q.1 % 3 * 3 + q.2 % 3 < 9 := by omega
      have hx := (hgen (q.1 % 3 * 3 + q.2 % 3)
        (List.mem_range.mpr hlt)).2.2
      have e1 : 3 * (pos.1 / 3) + (q.1 % 3 * 3 + q.2 % 3) / 3 = q.1 := by
        rw [← hb1]; omega
      have e2 : 3 * (pos.2 / 3) + (q.1 % 3 * 3 + q.2 % 3) % 3 = q.2 := by
        rw [← hb2]; omega
      have he : (3 * (pos.1 / 3) + (q.1 % 3 * 3 + q.2 % 3) / 3,
          3 * (pos.2 / 3) + (q.1 % 3 * 3 + q.2 % 3) % 3) = q :=
        Prod.ext e1 e2
      rwa [he] at hx

/-- Writing a value that passed `is_valid` into an empty cell preserves
board soundness. -/
theorem sudSound_assign {b : Board} {cell : Nat × Nat} {v : Nat}
    (hs : SudSoundBoard b) (hc1 : cell.1 < 9) (hc2 : cell.2 < 9)
    (hv : sudIsValid v cell b = true) :
    SudSoundBoard (bset b cell v) := by
  obtain ⟨hself, hnb⟩ := sudIsValid_spec hv hc1 hc2
  intro p hp q hq hp0 hq0
  by_cases ep : p = cell
  · subst ep
    have eq2 : q ≠ p := (mem_getNeighbors.mp hq).2.1
    rw [bset, if_pos rfl] at hp0 ⊢
    rw [bset, if_neg eq2] at hq0 ⊢
    exact hnb q hq
  · by_cases eq2 : q = cell
    · rw [bset, if_neg ep] at hp0 ⊢
      rw [bset, if_pos eq2] at hq0 ⊢
      have hmem : p ∈ getNeighbors cell := by
        rw [← eq2]
        exact getNeighbors_symm (mem_allPos.mp hp).1 (mem_allPos.mp hp).2 hq
      exact Ne.symm (hnb p hmem)
    · rw [bset, if_neg ep] at hp0 ⊢
      rw [bset, if_neg eq2] at hq0 ⊢
      exact hs p hp q hq hp0 hq0

/-- Resetting a cell to `0` preserves board soundness (a zero cell is
exempt). -/
theorem sudSound_reset {b : Board} {cell : Nat × Nat}
    (hs : SudSoundBoard b) : SudSoundBoard (bset b cell 0) := by
  intro p hp q hq hp0 hq0
  by_cases ep : p = cell
  · subst ep
    rw [bset, if_pos rfl] at hp0
    exact absurd rfl hp0
  · by_cases eq2 : q = cell
    · subst eq2
      rw [bset, if_pos rfl] at hq0
      exact absurd rfl hq0
    · rw [bset, if_neg ep] at hp0 ⊢
      rw [bset, if_neg eq2] at hq0 ⊢
      exact hs p hp q hq hp0 hq0

/-- Soundness of the Sudoku value loop: every returned board is sound,
and a `True` flag additionally means the board is complete. -/
theorem sudLoop_sound
    (bt : Board → DState (Nat × Nat) Nat →
      PyRes (Bool × Board × DState (Nat × Nat) Nat))
    (hbt : ∀ b st flag b2 st2, bt b st = .out (flag, b2, st2) →
      SudSoundBoard b →
      SudSoundBoard b2 ∧ (flag = true → ∀ p ∈ allPos, b2 p ≠ 0)) :
    ∀ (values : List Nat) (cell : Nat × Nat) (b : Board)
      (st : DState (Nat × Nat) Nat) (flag : Bool) (b2 : Board)
      (st2 : DState (Nat × Nat) Nat),
      sudLoop cell bt values b st = .out (flag, b2, st2) →
      SudSoundBoard b → cell.1 < 9 → cell.2 < 9 → b cell = 0 →
      SudSoundBoard b2 ∧ (flag = true → ∀ p ∈ allPos, b2 p ≠ 0) := by
  intro values
  induction values with
  | nil =>
    intro cell b st flag b2 st2 h hs _ _ _
    have h' : PyRes.out ((false : Bool), b, st) = .out (flag, b2, st2) := h
    cases h'
    exact ⟨hs, fun hfl => absurd hfl Bool.false_ne_true⟩
  | cons v rest ihv =>
    intro cell b st flag b2 st2 h hs hc1 hc2 hcell
    rw [sudLoop] at h
    by_cases hval : sudIsValid v cell b = true
    · rw [if_pos hval] at h
      by_cases hac : (ac3Run sudSolver st).1 = true
      · rw [if_pos hac] at h
        cases hbtres : bt (bset b cell v) (ac3Run sudSolver st).2 with
        | out p =>
          obtain ⟨fl2, b3, st3⟩ := p
          cases fl2 with
          | true =>
            rw [hbtres] at h
            have h' : PyRes.out ((true : Bool), b3, st3) =
                .out (flag, b2, st2) := h
            cases h'
            have hres :=
              hbt _ _ _ _ _ hbtres (sudSound_assign hs hc1 hc2 hval)
            exact ⟨hres.1, fun _ => hres.2 rfl⟩
          | false =>
            rw [hbtres] at h
            have hs3 :=
              (hbt _ _ _ _ _ hbtres (sudSound_assign hs hc1 hc2 hval)).1
            refine ihv cell (bset b3 cell 0) st3 flag b2 st2 h
              (sudSound_reset hs3) hc1 hc2 ?_
            rw [bset, if_pos rfl]
        | err =>
          rw [hbtres] at h
          exact PyRes.noConfusion (h : PyRes.err = _)
        | fuelOut =>
          rw [hbtres] at h
          exact PyRes.noConfusion (h : PyRes.fuelOut = _)
      · rw [if_neg hac] at h
        exact ihv cell b _ flag b2 st2 h hs hc1 hc2 hcell
    · rw [if_neg hval] at h
      exact ihv cell b st flag b2 st2 h hs hc1 hc2 hcell

/-- Soundness of `SudokuSolver.backtracking`: starting from a board whose
filled cells are pairwise consistent, every returned board still is, and
a `True` return means every cell is filled. -/
theorem sudBacktracking_sound :
    ∀ (fuel : Nat) (b : Board) (st : DState (Nat × Nat) Nat) (flag : Bool)
      (b2 : Board) (st2 : DState (Nat × Nat) Nat),
      sudBacktracking fuel b st = .out (flag, b2, st2) →
      SudSoundBoard b →
      SudSoundBoard b2 ∧ (flag = true → ∀ p ∈ allPos, b2 p ≠ 0) := by
  intro fuel
  induction fuel with
  | zero =>
    intro b st flag b2 st2 h _
    exact PyRes.noConfusion (h : PyRes.fuelOut = _)
  | succ m ih =>
    intro b st flag b2 st2 h hs
    rw [sudBacktracking] at h
    by_cases hall : (allPos.all fun p => b p != 0) = true
    · rw [if_pos hall] at h
      have h' : PyRes.out ((true : Bool), b, st) = .out (flag, b2, st2) := h
      cases h'
      refine ⟨hs, fun _ => ?_⟩
      intro p hp
      exact bne_iff_ne.mp (List.all_eq_true.mp hall p hp)
    · rw [if_neg hall] at h
      cases hsel : sudSelectVar b st with
      | none =>
        rw [hsel] at h
        exact PyRes.noConfusion (h : PyRes.err = _)
      | some cell =>
        rw [hsel] at h
        have hmem := pickMin_mem _ _ _ hsel
        simp only [List.mem_filter, beq_iff_eq] at hmem
        obtain ⟨hpos, hzero⟩ := hmem
        obtain ⟨hc1, hc2⟩ := mem_allPos.mp hpos
        exact sudLoop_sound _
          (fun b' s' fl' b2' st2' hb' hs' => ih b' s' fl' b2' st2' hb' hs')
          _ _ _ _ _ _ _ h hs hc1 hc2 hzero

/- ------------------------------------------------------------------
Lemmas about the `CryptarithmeticSolver` instantiation.
------------------------------------------------------------------ -/

theorem listPairwise_of_forall {α : Type} {r : α → α → Prop}
    (h : ∀ a b, r a b) : ∀ l : List α, l.Pairwise r := by
  intro l
  induction l with
  | nil => exact List.Pairwise.nil
  | cons a t iht => exact List.Pairwise.cons (fun b _ => h a b) iht

/-- `count_constraints` always returns `0`: the int-vs-set comparison in
its body is identically `False`. -/
theorem countConstraints_eq_zero (st : DState Letter Nat) (var : Letter)
    (value : Nat) (asg : List (Letter × Nat)) :
    countConstraints st var value asg = 0 := by
  unfold countConstraints intEqSet
  simp

/-- Because every `count_constraints` key is `0`, the stable sort in
`order_domain_values` returns the domain in its iteration order. -/
theorem orderDomainValues_eq (st : DState Letter Nat) (var : Letter)
    (asg : List (Letter × Nat)) :
    orderDomainValues st var asg = st var := by
  unfold orderDomainValues
  apply List.Sorted.insertionSort_eq
  apply listPairwise_of_forall
  intro a b
  rw [countConstraints_eq_zero, countConstraints_eq_zero]

/-- The initial `ac3` of `solve()` revises nothing: on full `0..9`
domains every value has a differing partner, so the loop pops all 28
constraint arcs and returns `True` with the store untouched. -/
theorem cryptAc3_init :
    ac3RunQ cryptSolver cryptInit cryptConstraints = (true, cryptInit) := by
  rfl

theorem lookup_mem {α β : Type} [DecidableEq α] :
    ∀ (l : List (α × β)) (k : α) (v : β),
      List.lookup k l = some v → (k, v) ∈ l := by
  intro l
  induction l with
  | nil => intro k v h; simp [List.lookup] at h
  | cons p t iht =>
    obtain ⟨a, b⟩ := p
    intro k v h
    rw [List.lookup_cons] at h
    by_cases hk : k = a
    · subst hk
      simp only [beq_self_eq_true] at h
      have h' : some b = some v := h
      rw [← Option.some.inj h']
      exact List.mem_cons_self _ _
    · have hb : (k == a) = false := beq_eq_false_iff_ne.mpr hk
      rw [hb] at h
      exact List.mem_cons_of_mem _ (iht k v h)

theorem lookup_none_iff {α β : Type} [DecidableEq α] :
    ∀ (l : List (α × β)) (k : α),
      List.lookup k l = none ↔ k ∉ l.map Prod.fst := by
  intro l
  induction l with
  | nil => intro k; simp [List.lookup]
  | cons p t iht =>
    obtain ⟨a, b⟩ := p
    intro k
    rw [List.lookup_cons]
    simp only [List.map_cons, List.mem_cons]
    by_cases hk : k = a
    · subst hk
      simp only [beq_self_eq_true]
      constructor
      · intro h
        exact Option.noConfusion (h : some b = none)
      · intro h
        exact absurd (Or.inl trivial) h
    · have hb : (k == a) = false := beq_eq_false_iff_ne.mpr hk
      rw [hb, iht k]
      constructor
      · intro h hmem
        rcases hmem with h1 | h2
        · exact hk h1
        · exact h h2
      · intro h h2
        exact h (Or.inr h2)

theorem cryptVariables_nodup : cryptVariables.Nodup := by decide

theorem tSol_inj : ∀ x y : Letter, tSol x = tSol y → x = y := by decide

theorem tSol_lt10 : ∀ x : Letter, tSol x < 10 := by decide

theorem crypt_keys_le {asg : List (Letter × Nat)}
    (hnd : (asg.map Prod.fst).Nodup)
    (hsub : ∀ p ∈ asg, p.1 ∈ cryptVariables) :
    asg.length ≤ cryptVariables.length := by
  have hsubv : asg.map Prod.fst ⊆ cryptVariables := by
    intro x hx
    simp only [List.mem_map] at hx
    obtain ⟨p, hp, rfl⟩ := hx
    exact hsub p hp
  have hle := (hnd.subperm hsubv).length_le
  rwa [List.length_map] at hle

/-- A full-length duplicate-free assignment over the variables is a key
cover: every variable has a lookup hit. -/
theorem crypt_keys_cover {asg : List (Letter × Nat)}
    (hnd : (asg.map Prod.fst).Nodup)
    (hsub : ∀ p ∈ asg, p.1 ∈ cryptVariables)
    (hlen : asg.length = cryptVariables.length) :
    ∀ v ∈ cryptVariables, ∃ x, List.lookup v asg = some x ∧ (v, x) ∈ asg := by
  have hsubv : asg.map Prod.fst ⊆ cryptVariables := by
    intro x hx
    simp only [List.mem_map] at hx
    obtain ⟨p, hp, rfl⟩ := hx
    exact hsub p hp
  have hperm : (asg.map Prod.fst).Perm cryptVariables := by
    apply (hnd.subperm hsubv).perm_of_length_le
    rw [List.length_map, hlen]
  intro v hv
  have hvk : v ∈ asg.map Prod.fst := hperm.mem_iff.mpr hv
  cases hl : List.lookup v asg with
  | none => exact absurd hvk ((lookup_none_iff asg v).mp hl)
  | some x => exact ⟨x, rfl, lookup_mem asg v x hl⟩

/-- What a passing `is_valid_solution` check means. -/
theorem isValidSolution_parts {asg : List (Letter × Nat)}
    (h : isValidSolution asg = true) :
    asg.length ≤ (asg.map Prod.snd).dedup.length ∧
    lookupD asg .S ≠ 0 ∧ lookupD asg .M ≠ 0 ∧
    1000 * lookupD asg .S + 100 * lookupD asg .E + 10 * lookupD asg .N +
        lookupD asg .D +
      (1000 * lookupD asg .M + 100 * lookupD asg .O +
        10 * lookupD asg .R + lookupD asg .E) =
    10000 * lookupD asg .M + 1000 * lookupD asg .O +
      100 * lookupD asg .N + 10 * lookupD asg .E + lookupD asg .Y := by
  unfold isValidSolution at h
  split at h
  next hlt => exact absurd h Bool.false_ne_true
  next hlt =>
    split at h
    next hz => exact absurd h Bool.false_ne_true
    next hz =>
      simp only [Bool.or_eq_true, beq_iff_eq, not_or] at hz
      exact ⟨Nat.le_of_not_lt hlt, hz.1, hz.2, by
        have := beq_iff_eq.mp h
        omega⟩

/-- A passing check also certifies all assigned digits are distinct. -/
theorem isValidSolution_values_nodup {asg : List (Letter × Nat)}
    (h : isValidSolution asg = true) :
    (asg.map Prod.snd).Nodup := by
  have hle := (isValidSolution_parts h).1
  have hsub := List.dedup_sublist (asg.map Prod.snd)
  have hlen : (asg.map Prod.snd).dedup.length = (asg.map Prod.snd).length :=
    Nat.le_antisymm hsub.length_le (by rw [List.length_map]; exact hle)
  have heq := hsub.eq_of_length hlen
  exact List.dedup_eq_self.mp heq

/-- An assignment laid out from the classic solution passes
`is_valid_solution`. -/
theorem isValidSolution_of_tSol {asg : List (Letter × Nat)}
    (hnd : (asg.map Prod.fst).Nodup)
    (hval : ∀ p ∈ asg, p.2 = tSol p.1)
    (hcover : ∀ v ∈ cryptVariables, List.lookup v asg = some (tSol v))
    (_hlen : asg.length = cryptVariables.length) :
    isValidSolution asg = true := by
  have hl : ∀ v ∈ cryptVariables, lookupD asg v = tSol v := by
    intro v hv
    unfold lookupD
    rw [hcover v hv]
    rfl
  have hsnd : asg.map Prod.snd = (asg.map Prod.fst).map tSol := by
    rw [List.map_map]
    exact List.map_congr_left hval
  have hndv : (asg.map Prod.snd).Nodup := by
    rw [hsnd]
    exact List.Nodup.map (fun x y hxy => tSol_inj x y hxy) hnd
  have hded : (asg.map Prod.snd).dedup = asg.map Prod.snd :=
    List.dedup_eq_self.mpr hndv
  unfold isValidSolution
  rw [hded, List.length_map]
  rw [if_neg (Nat.lt_irrefl asg.length)]
  rw [hl .S (by decide), hl .M (by decide), hl .E (by decide),
    hl .N (by decide), hl .D (by decide), hl .O (by decide),
    hl .R (by decide), hl .Y (by decide)]
  decide

/-- When some variable is unassigned, `select_unassigned_variable`
returns one. -/
theorem cryptSelectVar_some {st : DState Letter Nat}
    {asg : List (Letter × Nat)}
    (hlen : asg.length < cryptVariables.length) :
    ∃ var, cryptSelectVar st asg = some var ∧
      List.lookup var asg = none ∧ var ∈ cryptVariables := by
  have hex : ∃ v, v ∈ cryptVariables.filter
      (fun u => !(List.lookup u asg).isSome) := by
    by_contra hall
    push_neg at hall
    have hsubv : cryptVariables ⊆ asg.map Prod.fst := by
      intro v hv
      cases hl : List.lookup v asg with
      | none =>
        exfalso
        apply hall v
        rw [List.mem_filter]
        refine ⟨hv, ?_⟩
        rw [hl]
        rfl
      | some x =>
        exact List.mem_map.mpr ⟨(v, x), lookup_mem asg v x hl, rfl⟩
    have hge := (cryptVariables_nodup.subperm hsubv).length_le
    rw [List.length_map] at hge
    omega
  obtain ⟨v, hvf⟩ := hex
  cases hpick : pickMin (fun c acc => decide ((st c).length < (st acc).length))
      (cryptVariables.filter (fun u => !(List.lookup u asg).isSome)) with
  | none =>
    exfalso
    cases hfil : cryptVariables.filter (fun u => !(List.lookup u asg).isSome)
        with
    | nil => rw [hfil] at hvf; simp at hvf
    | cons a t =>
      rw [hfil] at hpick
      exact Option.noConfusion (hpick : some _ = none)
  | some var =>
    refine ⟨var, hpick, ?_, ?_⟩
    · have hmem := pickMin_mem _ _ _ hpick
      rw [List.mem_filter] at hmem
      have := hmem.2
      simp only [Bool.not_eq_true'] at this
      exact Option.not_isSome_iff_eq_none.mp (by rw [this]; exact
        Bool.false_ne_true)
    · have hmem := pickMin_mem _ _ _ hpick
      exact (List.mem_filter.mp hmem).1

/-- Soundness of the value loop of `backtrack`: any `some` result came
from the recursive call on a well-formed extended assignment. -/
theorem cryptLoop_sound (st : DState Letter Nat) (var : Letter)
    (bt : DState Letter Nat → List (Letter × Nat) →
      Option (List (Letter × Nat)))
    (hbt : ∀ st2 asg2 a, bt st2 asg2 = some a →
      (asg2.map Prod.fst).Nodup → (∀ p ∈ asg2, p.1 ∈ cryptVariables) →
      (a.map Prod.fst).Nodup ∧ (∀ p ∈ a, p.1 ∈ cryptVariables) ∧
        a.length = cryptVariables.length ∧ isValidSolution a = true) :
    ∀ (values : List Nat) (asg : List (Letter × Nat))
      (a : List (Letter × Nat)),
      cryptLoop st var bt asg values = some a →
      (asg.map Prod.fst).Nodup → (∀ p ∈ asg, p.1 ∈ cryptVariables) →
      var ∉ asg.map Prod.fst → var ∈ cryptVariables →
      (a.map Prod.fst).Nodup ∧ (∀ p ∈ a, p.1 ∈ cryptVariables) ∧
        a.length = cryptVariables.length ∧ isValidSolution a = true := by
  intro values
  induction values with
  | nil =>
    intro asg a h
    exact absurd h (by simp [cryptLoop])
  | cons value rest ihv =>
    intro asg a h hnd hsub hvar hvin
    rw [cryptLoop] at h
    by_cases hg : (asg.all fun p => value != p.2) = true
    · rw [if_pos hg] at h
      by_cases hac : (ac3RunQ cryptSolver st cryptConstraints).1 = true
      · rw [if_pos hac] at h
        cases hb : bt (ac3RunQ cryptSolver st cryptConstraints).2
            (asg ++ [(var, value)]) with
        | some r =>
          rw [hb] at h
          have h' : some r = some a := h
          rw [← Option.some.inj h']
          apply hbt _ _ _ hb
          · rw [List.map_append]
            simp only [List.map_cons, List.map_nil]
            rw [List.nodup_append]
            refine ⟨hnd, List.nodup_singleton _, ?_⟩
            intro x hx hx2
            simp only [List.mem_singleton] at hx2
            subst hx2
            exact hvar hx
          · intro p hp
            rcases List.mem_append.mp hp with h1 | h1
            · exact hsub p h1
            · simp only [List.mem_singleton] at h1
              subst h1
              exact hvin
        | none =>
          rw [hb] at h
          exact ihv asg a h hnd hsub hvar hvin
      · rw [if_neg hac] at h
        exact ihv asg a h hnd hsub hvar hvin
    · rw [if_neg hg] at h
      exact ihv asg a h hnd hsub hvar hvin

/-- Soundness of `CryptarithmeticSolver.backtrack`: any returned
assignment has duplicate-free keys drawn from the variables, assigns all
eight of them, and passes `is_valid_solution`. -/
theorem cryptBacktrack_sound :
    ∀ (fuel : Nat) (st : DState Letter Nat) (asg : List (Letter × Nat))
      (a : List (Letter × Nat)),
      cryptBacktrack fuel st asg = some a →
      (asg.map Prod.fst).Nodup → (∀ p ∈ asg, p.1 ∈ cryptVariables) →
      (a.map Prod.fst).Nodup ∧ (∀ p ∈ a, p.1 ∈ cryptVariables) ∧
        a.length = cryptVariables.length ∧ isValidSolution a = true := by
  intro fuel
  induction fuel with
  | zero =>
    intro st asg a h
    exact absurd h (by simp [cryptBacktrack])
  | succ m ih =>
    intro st asg a h hnd hsub
    rw [cryptBacktrack] at h
    by_cases hleaf : (asg.length == cryptVariables.length) = true
    · rw [if_pos hleaf] at h
      by_cases hval : isValidSolution asg = true
      · rw [if_pos hval] at h
        have h' : some asg = some a := h
        rw [← Option.some.inj h']
        exact ⟨hnd, hsub, beq_iff_eq.mp hleaf, hval⟩
      · rw [if_neg hval] at h
        exact absurd h (by simp)
    · rw [if_neg hleaf] at h
      cases hsel : cryptSelectVar st asg with
      | none =>
        rw [hsel] at h
        exact absurd h (by simp)
      | some var =>
        rw [hsel] at h
        have hmem := pickMin_mem _ _ _ hsel
        rw [List.mem_filter] at hmem
        obtain ⟨hvin, hunas⟩ := hmem
        have hvar : var ∉ asg.map Prod.fst := by
          rw [← lookup_none_iff]
          simp only [Bool.not_eq_true'] at hunas
          exact Option.not_isSome_iff_eq_none.mp
            (by rw [hunas]; exact Bool.false_ne_true)
        exact cryptLoop_sound st var _
          (fun s2 a2 r hb hn hs => ih s2 a2 r hb hn hs) _ _ _ h hnd hsub
          hvar hvin

/-- If the value loop fails, the recursive call failed at every candidate
value that passes the all-different guard (given the AC-3 check holds). -/
theorem cryptLoop_none (st : DState Letter Nat) (var : Letter)
    (bt : DState Letter Nat → List (Letter × Nat) →
      Option (List (Letter × Nat)))
    (asg : List (Letter × Nat)) :
    ∀ (values : List Nat),
      cryptLoop st var bt asg values = none →
      (ac3RunQ cryptSolver st cryptConstraints).1 = true →
      ∀ v ∈ values, (asg.all fun p => v != p.2) = true →
        bt (ac3RunQ cryptSolver st cryptConstraints).2
          (asg ++ [(var, v)]) = none := by
  intro values
  induction values with
  | nil =>
    intro _ _ v hv
    simp at hv
  | cons value rest ihv =>
    intro h hac v hv hguard
    rw [cryptLoop] at h
    rcases List.mem_cons.mp hv with rfl | hmem
    · rw [if_pos hguard, if_pos hac] at h
      cases hb : bt (ac3RunQ cryptSolver st cryptConstraints).2
          (asg ++ [(var, v)]) with
      | some r =>
        rw [hb] at h
        exact absurd (h : some r = none) (by simp)
      | none => rfl
    · by_cases hg1 : (asg.all fun p => value != p.2) = true
      · rw [if_pos hg1] at h
        by_cases hac1 : (ac3RunQ cryptSolver st cryptConstraints).1 = true
        · rw [if_pos hac1] at h
          cases hb : bt (ac3RunQ cryptSolver st cryptConstraints).2
              (asg ++ [(var, value)]) with
          | some r =>
            rw [hb] at h
            exact absurd (h : some r = none) (by simp)
          | none =>
            rw [hb] at h
            exact ihv h hac v hmem hguard
        · rw [if_neg hac1] at h
          exact ihv h hac v hmem hguard
      · rw [if_neg hg1] at h
        exact ihv h hac v hmem hguard

/-- Completeness of `backtrack` along the classic solution: from any
well-formed partial assignment that agrees with it, with enough fuel,
`backtrack` on the untouched full domains does not fail. -/
theorem cryptBacktrack_complete :
    ∀ (fuel : Nat) (asg : List (Letter × Nat)),
      (asg.map Prod.fst).Nodup → (∀ p ∈ asg, p.1 ∈ cryptVariables) →
      (∀ p ∈ asg, p.2 = tSol p.1) →
      cryptVariables.length < asg.length + fuel →
      cryptBacktrack fuel cryptInit asg ≠ none := by
  intro fuel
  induction fuel with
  | zero =>
    intro asg hnd hsub _ hlen
    have := crypt_keys_le hnd hsub
    omega
  | succ m ih =>
    intro asg hnd hsub hval hlen
    rw [cryptBacktrack]
    have hle := crypt_keys_le hnd hsub
    by_cases hleaf : (asg.length == cryptVariables.length) = true
    · rw [if_pos hleaf]
      have hlen8 := beq_iff_eq.mp hleaf
      have hcover := crypt_keys_cover hnd hsub hlen8
      have hcover' : ∀ v ∈ cryptVariables,
          List.lookup v asg = some (tSol v) := by
        intro v hv
        obtain ⟨x, hlk, hmem⟩ := hcover v hv
        rw [hlk]
        exact congrArg some (hval (v, x) hmem)
      rw [if_pos (isValidSolution_of_tSol hnd hval hcover' hlen8)]
      simp
    · rw [if_neg hleaf]
      have hlt : asg.length < cryptVariables.length := by
        rcases Nat.lt_or_ge asg.length cryptVariables.length with h | h
        · exact h
        · exact absurd (beq_iff_eq.mpr (Nat.le_antisymm hle h)) hleaf
      obtain ⟨var, hsel, hnone, hvin⟩ :=
        @cryptSelectVar_some cryptInit asg hlt
      rw [hsel]
      intro hcontra
      have hguard : (asg.all fun p => tSol var != p.2) = true := by
        rw [List.all_eq_true]
        intro p hp
        rw [bne_iff_ne, hval p hp]
        intro heq
        have hvv := tSol_inj var p.1 heq
        exact ((lookup_none_iff asg var).mp hnone)
          (List.mem_map.mpr ⟨p, hp, hvv.symm⟩)
      have hvmem : tSol var ∈ orderDomainValues cryptInit var asg := by
        rw [orderDomainValues_eq]
        unfold cryptInit
        rw [List.mem_range]
        exact tSol_lt10 var
      have hbt := cryptLoop_none cryptInit var _ asg _ hcontra
        (by rw [cryptAc3_init]) (tSol var) hvmem hguard
      rw [show (ac3RunQ cryptSolver cryptInit cryptConstraints).2 =
        cryptInit from by rw [cryptAc3_init]] at hbt
      refine ih (asg ++ [(var, tSol var)]) ?_ ?_ ?_ ?_ hbt
      · rw [List.map_append]
        simp only [List.map_cons, List.map_nil]
        rw [List.nodup_append]
        refine ⟨hnd, List.nodup_singleton _, ?_⟩
        intro x hx hx2
        simp only [List.mem_singleton] at hx2
        exact ((lookup_none_iff asg var).mp hnone) (hx2 ▸ hx)
      · intro p hp
        rcases List.mem_append.mp hp with h1 | h1
        · exact hsub p h1
        · simp only [List.mem_singleton] at h1
          subst h1
          exact hvin
      · intro p hp
        rcases List.mem_append.mp hp with h1 | h1
        · exact hval p h1
        · simp only [List.mem_singleton] at h1
          subst h1
          rfl
      · rw [List.length_append]
        simp only [List.length_cons, List.length_nil]
        omega

/-- `solve()` unfolded: the initial `ac3` passes and leaves the full
domains, so `solve` is `backtrack` from the untouched store. -/
theorem cryptSolve_eq : cryptSolve = cryptBacktrack 9 cryptInit [] := by
  unfold cryptSolve
  rw [cryptAc3_init]
  exact if_pos rfl

theorem gTwo_nbrs (a : Nat) :
    mapNbrs gTwo a = if a = 0 then [1] else if a = 1 then [0] else [] := by
  by_cases h0 : a = 0
  · subst h0; rfl
  · by_cases h1 : a = 1
    · subst h1; rfl
    · rw [if_neg h0, if_neg h1]
      unfold mapNbrs gTwo
      rw [List.lookup_cons, List.lookup_cons]
      rw [beq_eq_false_iff_ne.mpr h0, beq_eq_false_iff_ne.mpr h1]
      rfl

theorem gTwo_sym : ∀ a b, b ∈ mapNbrs gTwo a → a ∈ mapNbrs gTwo b := by
  intro a b hb
  rw [gTwo_nbrs] at hb
  rw [gTwo_nbrs]
  by_cases h0 : a = 0
  · subst h0
    rw [if_pos rfl] at hb
    simp only [List.mem_singleton] at hb
    subst hb
    simp
  · by_cases h1 : a = 1
    · subst h1
      rw [if_neg h0, if_pos rfl] at hb
      simp only [List.mem_singleton] at hb
      subst hb
      simp
    · rw [if_neg h0, if_neg h1] at hb
      simp at hb

theorem gTwo_irr : ∀ a, a ∉ mapNbrs gTwo a := by
  intro a hmem
  rw [gTwo_nbrs] at hmem
  by_cases h0 : a = 0
  · subst h0; simp at hmem
  · by_cases h1 : a = 1
    · subst h1; simp at hmem
    · rw [if_neg h0, if_neg h1] at hmem
      simp at hmem

theorem mapBetter_trans (g : MapGraph) (st : DState Nat Nat) :
    ∀ a b c, mapBetter g st a b = true → mapBetter g st b c = true →
      mapBetter g st a c = true := by
  intro a b c hab hbc
  simp only [mapBetter, Bool.or_eq_true, Bool.and_eq_true,
    decide_eq_true_eq, beq_iff_eq] at hab hbc ⊢
  omega

theorem mapBetter_neg (g : MapGraph) (st : DState Nat Nat) :
    ∀ a b c, mapBetter g st a b = false → mapBetter g st b c = false →
      mapBetter g st a c = false := by
  intro a b c hab hbc
  simp only [mapBetter, Bool.or_eq_false_iff, Bool.and_eq_false_iff,
    decide_eq_false_iff_not, beq_iff_eq, beq_eq_false_iff_ne] at hab hbc ⊢
  omega

theorem mapBetter_irr (g : MapGraph) (st : DState Nat Nat) :
    ∀ a, mapBetter g st a a = false := by
  intro a
  simp only [mapBetter, Bool.or_eq_false_iff, Bool.and_eq_false_iff,
    decide_eq_false_iff_not, beq_iff_eq, beq_eq_false_iff_ne]
  omega

/- ------------------------------------------------------------------
Claim theorems.
------------------------------------------------------------------ -/

/-- C1: the snapshot/restore round trip claimed for the backtracking
controllers does not hold in the code.  On the triangle map with two
colors, `MapColoring.backtrack` snapshots country `0`'s domain, assigns
color `0`, and the AC-3 pass fails after pruning the OTHER countries;
`unassign` then restores only country `0`, so country `1` keeps the
pruned domain `[1]` instead of returning to its snapshot-time value
`[0, 1]` — both inside the first loop iteration and in the final state
`backtrack` leaves behind. -/
theorem c1_restore_is_partial :
    mapIsConsistent gTriangle (mapInit [0, 1]) 0 0 = true ∧
    (ac3Run (mapSolver gTriangle) (mapAssign (mapInit [0, 1]) 0 0)).1 =
      false ∧
    mapUnassign (ac3Run (mapSolver gTriangle)
        (mapAssign (mapInit [0, 1]) 0 0)).2 0 (mapInit [0, 1] 0) 0 =
      [0, 1] ∧
    mapUnassign (ac3Run (mapSolver gTriangle)
        (mapAssign (mapInit [0, 1]) 0 0)).2 0 (mapInit [0, 1] 0) 1 =
      [1] ∧
    mapInit [0, 1] 1 = [0, 1] ∧
    mapResFlag (mapBacktrack gTriangle 10 (mapInit [0, 1])) = some false ∧
    mapResDom (mapBacktrack gTriangle 10 (mapInit [0, 1])) 1 = some [1] := by
  decide

/-- C2 (counterexample): soundness as stated fails.  With a single color
on two adjacent countries the initial domains are already singletons, so
`backtrack` returns `True` immediately, yet the two adjacent countries
hold the same color, violating the registered constraint of the arc. -/
theorem c2_soundness_counterexample :
    mapResFlag (mapBacktrack gTwo 5 (mapInit [0])) = some true ∧
    mapResDom (mapBacktrack gTwo 5 (mapInit [0])) 0 = some [0] ∧
    mapResDom (mapBacktrack gTwo 5 (mapInit [0])) 1 = some [0] ∧
    ¬ MapSoundState gTwo (mapInit [0]) := by
  refine ⟨by decide, by decide, by decide, fun hs => ?_⟩
  exact hs 0 (by decide) 1 (by decide) 0 0 (by decide) (by decide) rfl

/-- C2 (amended): soundness holds provided the constraints already
committed in the starting state are not violated — for `MapColoring`,
whenever an all-singleton start is itself sound (true as soon as two
distinct colors are supplied); for `NQueensSolver`, whenever the
committed columns are pairwise valid (the constructor state commits
nothing); for `SudokuSolver`, whenever the pre-filled cells are valid;
and unconditionally for `CryptarithmeticSolver.solve`, whose returned
assignment always satisfies the pairwise-distinct constraints.  Then
every completed result satisfies every registered binary constraint on
every arc of the instance. -/
theorem c2_soundness_amended :
    (∀ (g : MapGraph),
      (∀ a b, b ∈ mapNbrs g a → a ∈ mapNbrs g b) →
      (∀ a, a ∉ mapNbrs g a) →
      ∀ (fuel : Nat) (st st' : DState Nat Nat),
        mapBacktrack g fuel st = .out (true, st') →
        (((mapVars g).all fun c => (st c).length == 1) = true →
          MapSoundState g st) →
        MapSoundState g st') ∧
    (∀ (n fuel : Nat) (st : DState Nat Nat) (d : List (Nat × Nat)),
      nqBacktrack n fuel st = .out d → d ≠ [] → NQSoundState n st →
      NQSoundDict d) ∧
    (∀ (fuel : Nat) (b : Board) (st : DState (Nat × Nat) Nat) (b2 : Board)
      (st2 : DState (Nat × Nat) Nat),
      sudBacktracking fuel b st = .out (true, b2, st2) → SudSoundBoard b →
      SudSoundBoard b2 ∧ ∀ p ∈ allPos, b2 p ≠ 0) ∧
    (∀ (a : List (Letter × Nat)), cryptSolve = some a →
      ∀ p1 ∈ a, ∀ p2 ∈ a, p1.1 ≠ p2.1 → p1.2 ≠ p2.2) := by
  refine ⟨?_, ?_, ?_, ?_⟩
  · intro g hsymG hirrG fuel st st' h h0
    exact mapBacktrack_sound g hsymG hirrG fuel st st' h h0
  · intro n fuel st d h hne hs
    exact nqBacktrack_sound n fuel st d h hne hs
  · intro fuel b st b2 st2 h hs
    have hres := sudBacktracking_sound fuel b st true b2 st2 h hs
    exact ⟨hres.1, hres.2 rfl⟩
  · intro a h
    rw [cryptSolve_eq] at h
    obtain ⟨hnd, hsub, hlen, hvalid⟩ :=
      cryptBacktrack_sound 9 cryptInit [] a h (by simp) (by simp)
    have hvn := isValidSolution_values_nodup hvalid
    intro p1 hp1 p2 hp2 hne12 heq
    exact hne12 (congrArg Prod.fst
      (List.inj_on_of_nodup_map hvn hp1 hp2 heq))

/-- C2 (witness): the map-coloring part applied to the two-country map
with colors `{0, 1}`, whose `backtrack` completes with a sound
coloring. -/
theorem c2_soundness_amended_witness :
    MapSoundState gTwo
      (mapResState (mapBacktrack gTwo 5 (mapInit [0, 1]))
        (mapInit [0, 1])) :=
  c2_soundness_amended.1 gTwo gTwo_sym gTwo_irr 5 (mapInit [0, 1]) _
    (by rfl) (fun hall => absurd hall (by decide))

/-- C3: `count_constraints` does not compute the LCV count the spec
describes.  Its body compares the candidate digit with the neighbour's
domain SET (`value == self.domains[neighbor]`), which is always `False`
in Python, so the count is `0` for every input — here `0` for letter `S`
and value `5` under the empty assignment, where the number of unassigned
neighbours whose domain contains `5` is in fact `7`. -/
theorem c3_count_constraints_bug :
    countConstraints cryptInit .S 5 [] = 0 ∧
    specCountConstraints cryptInit .S 5 [] = 7 ∧ (0 : Nat) ≠ 7 := by
  decide

set_option maxRecDepth 1000000 in
/-- C4: completeness on the small instances.  4-Queens passes its initial
AC-3 and `backtrack` returns a non-empty solution dict; the 4-vertex
complete planar map is 4-colored; the valid one-hole Sudoku board is
solved with the unique missing value `9`; 2-Queens is reported
unsatisfiable (its initial AC-3 already wipes a domain out, and a direct
`backtrack` returns the empty dict), and the triangle map with two colors
gets `False` — all returning normally rather than raising. -/
theorem c4_completeness_small :
    (ac3Run (nqSolver 4) (nqInit 4)).1 = true ∧
    nqBacktrack 4 6 (ac3Run (nqSolver 4) (nqInit 4)).2 =
      .out [(0, 1), (1, 3), (2, 0), (3, 2)] ∧
    mapResFlag (mapBacktrack gK4 10 (mapInit [0, 1, 2, 3])) = some true ∧
    sudResSummary (sudBacktracking 3 sudBoard1 (initDomains sudBoard1)) =
      some (true, 9) ∧
    (ac3Run (nqSolver 2) (nqInit 2)).1 = false ∧
    nqBacktrack 2 4 (nqInit 2) = .out [] ∧
    mapResFlag (mapBacktrack gTriangle 10 (mapInit [0, 1])) = some false :=
  ⟨by decide, by decide, by decide, by decide, by decide, by decide,
    by decide⟩

/-- C5 (counterexample): the MRV tie-break is not "most constraints with
other unassigned variables".  In state `stMRV` the unassigned countries
`0`, `1`, `4` all have two colors left; country `0` has no unassigned
neighbour while `1` and `4` have one each, yet
`select_unassigned_variable` picks `0` — its key uses the TOTAL degree
`len(self.map_graph[country])`, and `0` has the most neighbours
overall. -/
theorem c5_mrv_counterexample :
    mapSelectVar gMRV stMRV = some 0 ∧ ¬ SpecMRVChoice gMRV stMRV 0 := by
  constructor
  · decide
  · intro h
    have h1 := h.2 1 (by decide)
    rcases h1 with h1 | ⟨-, h1⟩
    · revert h1; decide
    · revert h1; decide

/-- C5 (amended): `select_unassigned_variable` picks an unassigned
country (domain size above one) minimal first by remaining-domain size
and then, among ties, maximal by its TOTAL adjacency-list length in the
map graph — counting assigned neighbours too. -/
theorem c5_select_minimal (g : MapGraph) (st : DState Nat Nat) (v : Nat)
    (h : mapSelectVar g st = some v) :
    v ∈ (mapVars g).filter (fun c => 1 < (st c).length) ∧
    ∀ u ∈ (mapVars g).filter (fun c => 1 < (st c).length),
      (st v).length < (st u).length ∨
        ((st v).length = (st u).length ∧
          (mapNbrs g u).length ≤ (mapNbrs g v).length) := by
  have hspec := pickMin_spec (mapBetter g st) (mapBetter_trans g st)
    (mapBetter_neg g st) (mapBetter_irr g st) _ v h
  refine ⟨hspec.1, ?_⟩
  intro u hu
  have hf := hspec.2 u hu
  simp only [mapBetter, Bool.or_eq_false_iff, Bool.and_eq_false_iff,
    decide_eq_false_iff_not, beq_iff_eq, beq_eq_false_iff_ne] at hf
  omega

/-- C5 (witness): the amended selection property at the concrete state
`stMRV`, where the picked country is `0`. -/
theorem c5_select_minimal_witness :
    0 ∈ (mapVars gMRV).filter (fun c => 1 < (stMRV c).length) ∧
    ∀ u ∈ (mapVars gMRV).filter (fun c => 1 < (stMRV c).length),
      (stMRV 0).length < (stMRV u).length ∨
        ((stMRV 0).length = (stMRV u).length ∧
          (mapNbrs gMRV u).length ≤ (mapNbrs gMRV 0).length) :=
  c5_select_minimal gMRV stMRV 0 (by decide)

/-- C6 (counterexample): the re-enqueue step of
`CryptarithmeticSolver.ac3` is not "the neighbours of `Xi` other than
`Xj`".  In state `stC6`, `revise(E, S)` shrinks `E`'s domain from
`{3, 4}` to the non-empty `{4}`, and the arcs then appended include
`(S, E)` — the code appends `(xk, E)` for every `xk != E`, including the
just-processed partner `S`, which the spec's set excludes. -/
theorem c6_requeue_counterexample :
    reviseDomain (cryptSolver.pred .E .S) (stC6 .E) (stC6 .S) = [4] ∧
    stC6 .E ≠ [4] ∧ ([4] : List Nat) ≠ [] ∧
    (Letter.S, Letter.E) ∈ appendedArcs cryptSolver .E .S ∧
    (Letter.S, Letter.E) ∉ specAppendedArcs cryptSolver .E .S := by
  decide

/-- C6 (amended): after a revision of `(Xi, Xj)` the map-coloring,
Sudoku and N-Queens loops append exactly the arcs `(Xk, Xi)` for `Xk` a
neighbour of `Xi` other than `Xj`; the cryptarithmetic loop instead
appends `(Xk, Xi)` for EVERY variable `Xk` other than `Xi`, `Xj`
included. -/
theorem c6_requeue_arcs :
    (∀ (g : MapGraph) (xi xj : Nat) (p : Nat × Nat),
      p ∈ appendedArcs (mapSolver g) xi xj ↔
        ∃ xk, p = (xk, xi) ∧ xk ∈ mapNbrs g xi ∧ xk ≠ xj) ∧
    (∀ (i j : Nat × Nat) (p : (Nat × Nat) × (Nat × Nat)),
      p ∈ appendedArcs sudSolver i j ↔
        ∃ k, p = (k, i) ∧ k ∈ getNeighbors i ∧ k ≠ j) ∧
    (∀ (n xi xj : Nat) (p : Nat × Nat),
      p ∈ appendedArcs (nqSolver n) xi xj ↔
        ∃ xk, p = (xk, xi) ∧ xk ∈ (nqSolver n).nbrs xi ∧ xk ≠ xj) ∧
    (∀ (xi xj : Letter) (p : Letter × Letter),
      p ∈ appendedArcs cryptSolver xi xj ↔
        ∃ xk, p = (xk, xi) ∧ xk ∈ cryptVariables ∧ xk ≠ xi) := by
  refine ⟨?_, ?_, ?_, ?_⟩
  · intro g xi xj p
    show p ∈ ((mapNbrs g xi).filter
        (fun xk => xk != xj)).map (fun xk => (xk, xi)) ↔ _
    simp only [List.mem_map, List.mem_filter, bne_iff_ne]
    constructor
    · rintro ⟨xk, ⟨hmem, hne⟩, rfl⟩
      exact ⟨xk, rfl, hmem, hne⟩
    · rintro ⟨xk, rfl, hmem, hne⟩
      exact ⟨xk, ⟨hmem, hne⟩, rfl⟩
  · intro i j p
    show p ∈ ((getNeighbors i).filter
        (fun k => k != j)).map (fun k => (k, i)) ↔ _
    simp only [List.mem_map, List.mem_filter, bne_iff_ne]
    constructor
    · rintro ⟨k, ⟨hmem, hne⟩, rfl⟩
      exact ⟨k, rfl, hmem, hne⟩
    · rintro ⟨k, rfl, hmem, hne⟩
      exact ⟨k, ⟨hmem, hne⟩, rfl⟩
  · intro n xi xj p
    show p ∈ ((List.range n).filter
        (fun xk => xk != xj && xk != xi)).map (fun xk => (xk, xi)) ↔ _
    simp only [List.mem_map, List.mem_filter, List.mem_range,
      Bool.and_eq_true, bne_iff_ne]
    constructor
    · rintro ⟨xk, ⟨hmem, hnej, hnei⟩, rfl⟩
      refine ⟨xk, rfl, ?_, hnej⟩
      show xk ∈ (List.range n).filter (fun u => u != xi)
      simp only [List.mem_filter, List.mem_range, bne_iff_ne]
      exact ⟨hmem, hnei⟩
    · rintro ⟨xk, rfl, hmem, hnej⟩
      have hmem' : xk ∈ (List.range n).filter (fun u => u != xi) := hmem
      simp only [List.mem_filter, List.mem_range, bne_iff_ne] at hmem'
      exact ⟨xk, ⟨hmem'.1, hnej, hmem'.2⟩, rfl⟩
  · intro xi xj p
    show p ∈ (cryptVariables.filter
        (fun xk => xk != xi)).map (fun xk => (xk, xi)) ↔ _
    simp only [List.mem_map, List.mem_filter, bne_iff_ne]
    constructor
    · rintro ⟨xk, ⟨hmem, hne⟩, rfl⟩
      exact ⟨xk, rfl, hmem, hne⟩
    · rintro ⟨xk, rfl, hmem, hne⟩
      exact ⟨xk, ⟨hmem, hne⟩, rfl⟩

/-- C7: SEND+MORE=MONEY.  `solve()` on
`['S','E','N','D','M','O','R','Y']` with domains `0..9` returns an
assignment with `S ≠ 0`, `M ≠ 0`, all eight letters assigned pairwise
distinct digits, and `SEND + MORE = MONEY` numerically. -/
theorem c7_send_more_money :
    ∃ a, cryptSolve = some a ∧
      lookupD a .S ≠ 0 ∧ lookupD a .M ≠ 0 ∧
      (a.map Prod.snd).Nodup ∧ a.length = 8 ∧
      (∀ v ∈ cryptVariables, (List.lookup v a).isSome = true) ∧
      1000 * lookupD a .S + 100 * lookupD a .E + 10 * lookupD a .N +
          lookupD a .D +
        (1000 * lookupD a .M + 100 * lookupD a .O + 10 * lookupD a .R +
          lookupD a .E) =
      10000 * lookupD a .M + 1000 * lookupD a .O + 100 * lookupD a .N +
        10 * lookupD a .E + lookupD a .Y := by
  have hne : cryptSolve ≠ none := by
    rw [cryptSolve_eq]
    exact cryptBacktrack_complete 9 [] (by simp) (by simp) (by simp)
      (by decide)
  cases hs : cryptSolve with
  | none => exact absurd hs hne
  | some a =>
    obtain ⟨hnd, hsub, hlen, hvalid⟩ :=
      cryptBacktrack_sound 9 cryptInit [] a
        (by rw [← cryptSolve_eq]; exact hs) (by simp) (by simp)
    obtain ⟨-, hS, hM, heq⟩ := isValidSolution_parts hvalid
    refine ⟨a, rfl, hS, hM, isValidSolution_values_nodup hvalid,
      by rw [hlen]; rfl, ?_, heq⟩
    intro v hv
    obtain ⟨x, hlk, -⟩ := crypt_keys_cover hnd hsub hlen v hv
    rw [hlk]
    rfl

/-- C8: AC-3 idempotence.  For any solver instantiation with a symmetric
arc predicate, an irreflexive neighbour relation, and a re-enqueue set
that covers the in-neighbours of the revised variable (which the
repository's instantiations satisfy), if `ac3` just returned `True` with
final store `st'`, then running `ac3` again returns `True` and removes no
value: the second run ends in exactly `st'`. -/
theorem c8_ac3_idempotent {V α : Type} [DecidableEq V] [DecidableEq α]
    (S : Solver V α)
    (hsym : ∀ a b x y, S.pred a b x y = S.pred b a y x)
    (hirr : ∀ a, a ∉ S.nbrs a)
    (hcov : ∀ xi xj a, a ∈ S.vars → a ≠ xi → a ≠ xj → xi ∈ S.nbrs a →
      a ∈ S.requeue xi xj)
    (hreqne : ∀ xi xj a, a ∈ S.requeue xi xj → a ≠ xi)
    (st st' : DState V α)
    (h : ac3Run S st = (true, st')) :
    ac3Run S st' = (true, st') := by
  have h1 := ac3RunQ_eq_some h
  have hqok : ∀ p ∈ initArcs S, p.1 ≠ p.2 := by
    intro p hp
    obtain ⟨a, b⟩ := p
    obtain ⟨ha, hb⟩ := mem_initArcs.mp hp
    intro he
    have he' : a = b := he
    subst he'
    exact hirr a hb
  have hinv : ∀ a ∈ S.vars, ∀ b ∈ S.nbrs a,
      Consistent S st a b ∨ (a, b) ∈ initArcs S := by
    intro a ha b hb
    exact Or.inr (mem_initArcs.mpr ⟨ha, hb⟩)
  have hcons :=
    ac3F_fixpoint S hsym hirr hcov hreqne _ st _ st' hqok hinv h1
  have hallq : ∀ p ∈ initArcs S, Consistent S st' p.1 p.2 := by
    intro p hp
    obtain ⟨a, b⟩ := p
    obtain ⟨ha, hb⟩ := mem_initArcs.mp hp
    exact hcons a ha b hb
  have hclean := ac3F_of_consistent S (initArcs S) st' hallq
  have hmono := ac3F_mono S _ (ac3Bound S st' (initArcs S)) st'
    (initArcs S) _ hclean (by unfold ac3Bound; omega)
  unfold ac3Run ac3RunQ
  rw [hmono]
  rfl

/-- C8 (witness): the two-variable instance; the first run prunes
variable `0`'s domain to `{1}` and returns `True`, and a second run
returns `True` with the store unchanged. -/
theorem c8_ac3_idempotent_witness : ac3Run pairSolver pairStW2 =
    (true, pairStW2) :=
  c8_ac3_idempotent pairSolver (by decide) (by decide) (by decide)
    (by decide) pairStW pairStW2 (by rfl)

/-- C9: AC-3 termination.  For any solver instantiation whose re-enqueue
sets stay inside the variable list and below the length bound `K`
(satisfied by all four repository instantiations), and any worklist whose
arcs start at solver variables, the worklist loop finishes within the
computable fuel bound `totalSize * (K + 1) + |queue| + 1`, returning a
definite result. -/
theorem c9_ac3_terminates {V α : Type} [DecidableEq V] [DecidableEq α]
    (S : Solver V α)
    (hreq_vars : ∀ xi xj, ∀ xk ∈ S.requeue xi xj, xk ∈ S.vars)
    (hreq_len : ∀ xi xj, (S.requeue xi xj).length ≤ S.K)
    (st : DState V α) (q : List (V × V))
    (hq : ∀ p ∈ q, p.1 ∈ S.vars) :
    ∃ r : Bool × DState V α, ac3F S (ac3Bound S st q) st q = some r := by
  have hsome := ac3F_isSome_of_bound S hreq_vars hreq_len
    (totalSize S st * (S.K + 1) + q.length) st q hq (Nat.le_refl _)
  exact Option.isSome_iff_exists.mp hsome

/-- C9 (witness): termination of the two-variable instance's AC-3 on its
full initial worklist. -/
theorem c9_ac3_terminates_witness :
    ∃ r : Bool × DState (Fin 2) (Fin 2),
      ac3F pairSolver
        (ac3Bound pairSolver pairStW (initArcs pairSolver)) pairStW
        (initArcs pairSolver) = some r :=
  c9_ac3_terminates pairSolver (by decide) (by decide) pairStW
    (initArcs pairSolver) (by decide)

/-- C10: the wipeout contract of `ac3`.  A finished run returns `False`
exactly when one of its revisions emptied some variable's domain (a
variable non-empty at entry and empty in the final store); consequently
a `True` return keeps every domain that was non-empty at entry
non-empty. -/
theorem c10_wipeout_iff {V α : Type} [DecidableEq V] [DecidableEq α]
    (S : Solver V α) (fuel : Nat) (st : DState V α) (q : List (V × V))
    (b : Bool) (st' : DState V α)
    (h : ac3F S fuel st q = some (b, st')) :
    (b = false ↔ ∃ v, st v ≠ [] ∧ st' v = []) ∧
    (b = true → ∀ v, st v ≠ [] → st' v ≠ []) := by
  constructor
  · constructor
    · intro hb
      subst hb
      exact ac3F_false_wipe S fuel st q st' h
    · rintro ⟨v, hv1, hv2⟩
      cases b with
      | false => rfl
      | true => exact absurd (ac3F_true_nonempty S fuel st q st' h v hv2) hv1
  · intro hb v hv1 hv2
    subst hb
    exact hv1 (ac3F_true_nonempty S fuel st q st' h v hv2)

/-- C10 (witness): the two-variable instance with both domains `{0}`;
revising `(0, 1)` wipes variable `0` out, the run returns `False`, and
the contract instantiates accordingly. -/
theorem c10_wipeout_iff_witness :
    ((false = false) ↔ ∃ v, pairStWipe v ≠ [] ∧ pairWipeSt v = []) ∧
    (false = true → ∀ v : Fin 2, pairStWipe v ≠ [] → pairWipeSt v ≠ []) :=
  c10_wipeout_iff pairSolver 3 pairStWipe [((0 : Fin 2), (1 : Fin 2))]
    false pairWipeSt (by rfl)

end CSPModel
